import Mathlib

/-!
# Pull engine of `drive` (`commands/pull.go`)

A shallow embedding of `playPullChangeList`, `localMod`, `localAdd`,
`localDelete` and `download`, over an explicit model of the local filesystem,
the remote client and the event log of the calls the code makes.
-/

namespace Drive

/-! ## Data model -/

/-- Modelled from the spec: the type `types.Operation` is declared outside
`commands/pull.go`.  The switch in `playPullChangeList` names `OpMod`, `OpAdd`
and `OpDelete` and has no `default` branch; `other` stands for every value of
the Go integer type that is none of these three. -/
inductive Operation where
  | OpAdd
  | OpMod
  | OpDelete
  | other (code : Nat)
  deriving DecidableEq, Repr

/-- Modelled from the spec: the fields of `types.File` that `pull.go` reads
(`Id`, `BlobAt`, `IsDir`, `ModTime`).  A `time.Time` is the number of
nanoseconds from the Unix epoch to the instant, of any size. -/
structure File where
  Id : String
  BlobAt : String
  IsDir : Bool
  ModTime : Int
  deriving DecidableEq, Repr

/-- Modelled from the spec: the fields of `types.Change` that `pull.go` reads.
`op` is the value of `change.Op()`.  `Src` is the remote side and `Dest` the
local side; a handler dereferences only the side that is authoritative for its
operation, which the data model requires to be present. -/
structure Change where
  Path : String
  op : Operation
  Src : File
  Dest : File
  deriving DecidableEq, Repr

/-- Go `error` values that the model distinguishes. -/
inductive Err where
  | ENOENT
  | EEXIST
  | ENOTDIR
  | EISDIR
  | EINVAL
  | EBUSY
  | ENOTEMPTY
  | remote (msg : String)
  | ioFail (msg : String)
  deriving DecidableEq, Repr

/-- The three goroutine entry points of the switch. -/
inductive Handler where
  | localMod
  | localAdd
  | localDelete
  deriving DecidableEq, Repr

/-- Calls made by the code, in the order they are made. -/
inductive Event where
  | taskStart (n : Nat)
  | taskDone
  | taskFinish
  | wgAdd (n : Nat)
  | wgDone
  | go (h : Handler) (c : Change)
  | mkdirAll (path : String)
  | mkdir (path : String)
  | chtimes (path : String) (mtime : Int)
  | removeAll (path : String)
  | create (path : String)
  | closeFile (path : String)
  | remDownload (id : String)
  | copy (path : String)
  | closeBlob (id : String)
  deriving DecidableEq, Repr

/-! ## Local filesystem

The filesystem holds directories and regular files only (no symbolic links)
and every operation is permitted.  Path strings are resolved as the kernel
does, from the root; the working directory of the process is the root. -/

/-- A location: the names from the root down to an entry. -/
abbrev Path := List String

/-- An entry of the local filesystem; `modTime` is in nanoseconds from the
Unix epoch, and the filesystem keeps any `int64` number of them. -/
structure Node where
  isDir : Bool
  content : List Nat
  modTime : Int
  deriving DecidableEq, Repr

/-- The local filesystem: the entry found at each location, if any.  The root
(the empty list) is always a directory, with or without an entry of its own. -/
abbrev FS := Path → Option Node

/-- The parts of a path string between its separators, empty parts included;
`cur` holds the characters of the part being read. -/
def rawSplitAux : List Char → List Char → List String
  | [], cur => [String.mk cur]
  | c :: cs, cur =>
    if c = '/' then String.mk cur :: rawSplitAux cs [] else rawSplitAux cs (cur ++ [c])

/-- The parts of a path string between its separators, empty parts included. -/
def rawSplit (p : String) : List String :=
  rawSplitAux p.data []

/-- The elements of a path string: its non-empty parts. -/
def pieces (p : String) : List String :=
  (rawSplit p).filter (fun s => s ≠ "")

/-- The location reached from `cur` through the elements given, when every
step can be taken: `.` stays, `..` goes up (the root is its own parent), a
name goes down. -/
def resolveLex : Path → List String → Path
  | cur, [] => cur
  | cur, c :: rest =>
    if c = "." then resolveLex cur rest
    else if c = ".." then resolveLex cur.dropLast rest
    else resolveLex (cur ++ [c]) rest

/-- The location a path string names. -/
def components (p : String) : Path :=
  resolveLex [] (pieces p)

/-- A directory is found at `q`. -/
def isDirAt (fs : FS) (q : Path) : Bool :=
  q == [] || (match fs q with
    | some n => n.isDir
    | none => false)

/-- Something is found at `q`. -/
def existsAt (fs : FS) (q : Path) : Bool :=
  q == [] || (fs q).isSome

/-- The filesystem with the entry at `q` replaced. -/
def FS.set (fs : FS) (q : Path) (n : Option Node) : FS :=
  fun r => if r = q then n else fs r

/-- The filesystem with the modification time of the entry at `q`, if it has
one, set to `t`. -/
def touch (t : Int) (fs : FS) (q : Path) : FS :=
  match fs q with
  | some n => fs.set q (some { n with modTime := t })
  | none => fs

/-- Result of resolving a path. -/
inductive Resolved where
  | found (q : Path)
  | failed (e : Err)
  deriving DecidableEq, Repr

/-- Resolution of the leading elements of a path from `cur`: each name passed
through must be a directory; a regular file there is `ENOTDIR`, nothing there
is `ENOENT`. -/
def walkDirs (fs : FS) : Path → List String → Resolved
  | cur, [] => Resolved.found cur
  | cur, c :: rest =>
    if c = "." then walkDirs fs cur rest
    else if c = ".." then walkDirs fs cur.dropLast rest
    else if isDirAt fs (cur ++ [c]) then walkDirs fs (cur ++ [c]) rest
    else if existsAt fs (cur ++ [c]) then Resolved.failed Err.ENOTDIR
    else Resolved.failed Err.ENOENT

/-- Resolution of a whole list of elements to an existing entry; `slash` says
that the string ended in a separator, which only a directory satisfies. -/
def lookupPieces (fs : FS) (ps : List String) (slash : Bool) : Resolved :=
  match ps.getLast? with
  | none => Resolved.found []
  | some last =>
    match walkDirs fs [] ps.dropLast with
    | Resolved.failed e => Resolved.failed e
    | Resolved.found dir =>
      if last = "." then Resolved.found dir
      else if last = ".." then Resolved.found dir.dropLast
      else if isDirAt fs (dir ++ [last]) then Resolved.found (dir ++ [last])
      else if existsAt fs (dir ++ [last]) then
        (if slash then Resolved.failed Err.ENOTDIR else Resolved.found (dir ++ [last]))
      else Resolved.failed Err.ENOENT

/-- The path string ends in a separator. -/
def endsWithSlash (p : String) : Bool :=
  p.data.getLast? == some '/'

/-- The path string starts with a separator. -/
def rooted (p : String) : Bool :=
  p.data.head? == some '/'

/-- `os.Lstat(path)`: the location of the entry the path names, or the error.
The empty string names nothing. -/
def lookupPath (fs : FS) (p : String) : Resolved :=
  if p = "" then Resolved.failed Err.ENOENT
  else lookupPieces fs (pieces p) (endsWithSlash p)

/-- Something is found at the path named by the string `p` (`os.Lstat(p)`
succeeds). -/
def existsPath (fs : FS) (p : String) : Bool :=
  match lookupPath fs p with
  | Resolved.found _ => true
  | Resolved.failed _ => false

/-- `mkdir` on the elements of a path: the leading elements must resolve to a
directory and nothing may exist under the last name; the new directory and its
parent take the time `now`. -/
def mkdirPieces (now : Int) (ps : List String) (fs : FS) : FS × Option Err :=
  match ps.getLast? with
  | none => (fs, some Err.EEXIST)
  | some last =>
    match walkDirs fs [] ps.dropLast with
    | Resolved.failed e => (fs, some e)
    | Resolved.found dir =>
      if last = "." ∨ last = ".." then (fs, some Err.EEXIST)
      else if existsAt fs (dir ++ [last]) then (fs, some Err.EEXIST)
      else
        ((touch now fs dir).set (dir ++ [last])
          (some { isDir := true, content := [], modTime := now }), none)

/-- `os.Mkdir(path, perm)`. -/
def osMkdir (now : Int) (p : String) (fs : FS) : FS × Option Err :=
  if p = "" then (fs, some Err.ENOENT) else mkdirPieces now (pieces p) fs

/-- `os.MkdirAll` on the elements of a path given in reverse (last first): a
path that resolves to a directory is success, one that resolves to a file is
`ENOTDIR`; otherwise the path without its last element is made first, then the
path itself by `mkdir`, whose error is dropped when the path is a directory
afterwards. -/
def mkdirAllRev (now : Int) : List String → FS → FS × Option Err
  | [], fs => (fs, none)
  | c :: rest, fs =>
    match lookupPieces fs (c :: rest).reverse false with
    | Resolved.found q =>
      if isDirAt fs q then (fs, none) else (fs, some Err.ENOTDIR)
    | Resolved.failed _ =>
      match mkdirAllRev now rest fs with
      | (fs1, some e) => (fs1, some e)
      | (fs1, none) =>
        match mkdirPieces now (c :: rest).reverse fs1 with
        | (fs2, none) => (fs2, none)
        | (fs2, some e) =>
          match lookupPieces fs2 (c :: rest).reverse false with
          | Resolved.found q => if isDirAt fs2 q then (fs2, none) else (fs2, some e)
          | Resolved.failed _ => (fs2, some e)

/-- `os.MkdirAll(path, perm)`. -/
def osMkdirAll (now : Int) (p : String) (fs : FS) : FS × Option Err :=
  if p = "" then (fs, some Err.ENOENT) else mkdirAllRev now (pieces p).reverse fs

/-- The zero `time.Time`: 1 January of year 1, 00:00:00 UTC. -/
def zeroTime : Int := -62135596800000000000

/-- `t.UnixNano()`: the nanoseconds from the Unix epoch as an `int64`, which
wraps around outside the years 1678 to 2262. -/
def unixNano (t : Int) : Int :=
  (t + 2 ^ 63) % 2 ^ 64 - 2 ^ 63

/-- `os.Chtimes(path, atime, mtime)`: the path must resolve to an entry; a zero
`mtime` leaves its modification time as it is, any other sets it to
`mtime.UnixNano()`. -/
def osChtimes (p : String) (mtime : Int) (fs : FS) : FS × Option Err :=
  match lookupPath fs p with
  | Resolved.failed e => (fs, some e)
  | Resolved.found q =>
    if mtime = zeroTime then (fs, none) else (touch (unixNano mtime) fs q, none)

/-- The path string is `.` or ends in a separator followed by `.`. -/
def endsWithDot (p : String) : Bool :=
  match p.data.reverse with
  | ['.'] => true
  | '.' :: '/' :: _ => true
  | _ => false

/-- The filesystem without the entry at `t` and everything beneath it. -/
def removeAt (fs : FS) (t : Path) : FS :=
  fun q => if t.isPrefixOf q then none else fs q

/-- The filesystem without the entries beneath `d`, `d` itself kept. -/
def removeChildren (fs : FS) (d : Path) : FS :=
  fun q => if d.isPrefixOf q ∧ q ≠ d then none else fs q

/-- `os.RemoveAll(path)`.  The empty path is success with nothing removed; a
path ending in `.` is `EINVAL`.  When a leading element is missing nothing is
removed and the call succeeds; when one is a regular file the call fails with
`ENOTDIR`.  Otherwise the entry under the last name, if there is one, is
removed with everything beneath it and its parent takes the time `now`.  A path
that resolves to a directory through a last element `..`, through `.` before a
final separator, or to the root, has the entries beneath that directory removed
and fails on the directory itself; the directory then takes the time `now`, as
it does when it had entries to remove. -/
def osRemoveAll (now : Int) (p : String) (fs : FS) : FS × Option Err :=
  if p = "" then (fs, none)
  else if endsWithDot p then (fs, some Err.EINVAL)
  else
    match (pieces p).getLast? with
    | none => (removeChildren fs [], some Err.EBUSY)
    | some last =>
      match walkDirs fs [] (pieces p).dropLast with
      | Resolved.failed Err.ENOENT => (fs, none)
      | Resolved.failed e => (fs, some e)
      | Resolved.found dir =>
        if last = "." then (touch now (removeChildren fs dir) dir, some Err.EINVAL)
        else if last = ".." then
          (touch now (removeChildren fs dir.dropLast) dir.dropLast, some Err.ENOTEMPTY)
        else if existsAt fs (dir ++ [last]) then
          (touch now (removeAt fs (dir ++ [last])) dir, none)
        else (fs, none)

/-- `os.Create(path)`: the leading elements must resolve to a directory; a
regular file under the last name is truncated, nothing there is created as an
empty file and the parent takes the time `now`; a directory there, a last
element `.` or `..`, and a final separator are `EISDIR`. -/
def osCreate (now : Int) (p : String) (fs : FS) : FS × Option Err :=
  if p = "" then (fs, some Err.ENOENT)
  else
    match (pieces p).getLast? with
    | none => (fs, some Err.EISDIR)
    | some last =>
      match walkDirs fs [] (pieces p).dropLast with
      | Resolved.failed e => (fs, some e)
      | Resolved.found dir =>
        if last = "." ∨ last = ".." then (fs, some Err.EISDIR)
        else if endsWithSlash p then (fs, some Err.EISDIR)
        else if isDirAt fs (dir ++ [last]) then (fs, some Err.EISDIR)
        else if existsAt fs (dir ++ [last]) then
          (fs.set (dir ++ [last]) (some { isDir := false, content := [], modTime := now }),
            none)
        else
          ((touch now fs dir).set (dir ++ [last])
            (some { isDir := false, content := [], modTime := now }), none)

/-- The absolute path string of a location; `/` for the root. -/
def pathString (q : Path) : String :=
  if q = [] then "/" else String.mk (q.flatMap (fun c => '/' :: c.data))

/-- The elements `filepath.Clean` keeps: empty parts and `.` are dropped, `..`
removes the name before it; at the start of a rooted path `..` is dropped, at
the start of a relative one it is kept. -/
def cleanStack (isRooted : Bool) : List String → List String → List String
  | out, [] => out
  | out, c :: rest =>
    if c = "" ∨ c = "." then cleanStack isRooted out rest
    else if c = ".." then
      (match out.getLast? with
        | some l =>
          if l = ".." then cleanStack isRooted (out ++ [".."]) rest
          else cleanStack isRooted out.dropLast rest
        | none =>
          if isRooted then cleanStack isRooted out rest
          else cleanStack isRooted [".."] rest)
    else cleanStack isRooted (out ++ [c]) rest

/-- The string `filepath.Clean` returns for the elements kept: `/` or `.` when
there are none. -/
def joinPieces (isRooted : Bool) (out : List String) : String :=
  if isRooted then pathString out
  else if out = [] then "."
  else String.mk ((out.flatMap (fun c => '/' :: c.data)).drop 1)

/-- `filepath.Dir(path)`: the path up to its last separator, cleaned. -/
def filepathDir (p : String) : String :=
  joinPieces (rooted p) (cleanStack (rooted p) [] (rawSplit p).dropLast)

/-! ## Environment and state -/

/-- A remote content stream: the bytes that can be read before the stream
ends, and the read error that ends it, if any (`none` is end of file). -/
structure Stream where
  bytes : List Nat
  fail : Option Err
  deriving DecidableEq, Repr

/-- What `pull.go` takes from outside: `g.context.AbsPathOf`, `g.rem.Download`,
the result of closing a destination handle, and the clock of the filesystem. -/
structure Env where
  absPathOf : String → String
  remDownload : String → Except Err Stream
  closeErr : String → Option Err
  now : Int

/-- Mutable state: the local filesystem, the counter of the `sync.WaitGroup`
of the current window, and the log of calls made so far (oldest first). -/
structure World where
  fs : FS
  wg : Int
  trace : List Event

/-- Record a call in the log. -/
def World.log (w : World) (e : Event) : World :=
  { w with trace := w.trace ++ [e] }

/-- `io.Copy(fo, blob)` into the file at `q`: the bytes read are appended to
the file. -/
def writeAt (fs : FS) (q : Path) (bytes : List Nat) : FS :=
  match fs q with
  | some n => fs.set q (some { n with content := n.content ++ bytes })
  | none => fs

/-! ## `download` -/

/-- `download` (pull.go:132-159).  The destination is created or truncated; on
failure the function returns before any `defer` is registered.  Otherwise the
remote stream is requested and copied; on exit the stream is closed when it was
obtained, then the destination handle is closed and the error of that close is
dropped. -/
def download (env : Env) (change : Change) (w : World) : World × Option Err :=
  let destAbsPath := env.absPathOf change.Path
  let w1 := w.log (Event.create destAbsPath)
  match osCreate env.now destAbsPath w1.fs with
  | (_, some e) => (w1, some e)
  | (fs1, none) =>
    let w2 := ({ w1 with fs := fs1 }).log (Event.remDownload change.Src.Id)
    match env.remDownload change.Src.Id with
    | Except.error e =>
      let closeResult := env.closeErr destAbsPath
      let w3 := w2.log (Event.closeFile destAbsPath)
      match closeResult with
      | some _ => (w3, some e)
      | none => (w3, some e)
    | Except.ok blob =>
      let w3 := ({ w2 with fs := writeAt w2.fs (components destAbsPath) blob.bytes }).log
        (Event.copy destAbsPath)
      let err := blob.fail
      let w4 := w3.log (Event.closeBlob change.Src.Id)
      let closeResult := env.closeErr destAbsPath
      let w5 := w4.log (Event.closeFile destAbsPath)
      match closeResult with
      | some _ => (w5, err)
      | none => (w5, err)

/-! ## Handlers -/

/-- `localMod` up to its `return` (pull.go:98-105). -/
def localModBody (env : Env) (change : Change) (w : World) : World × Option Err :=
  let destAbsPath := env.absPathOf change.Path
  let step (w1 : World) : World × Option Err :=
    let w2 := w1.log (Event.chtimes destAbsPath change.Src.ModTime)
    let r := osChtimes destAbsPath change.Src.ModTime w2.fs
    ({ w2 with fs := r.1 }, r.2)
  if change.Src.BlobAt ≠ "" then
    match download env change w with
    | (w1, some e) => (w1, some e)
    | (w1, none) => step w1
  else step w

/-- The call `os.MkdirAll(filepath.Dir(destAbsPath), os.ModeDir|0755)` of
`localAdd` (pull.go:113), whose result is dropped. -/
def mkParents (env : Env) (change : Change) (w : World) : World :=
  { fs := (osMkdirAll env.now (filepathDir (env.absPathOf change.Path)) w.fs).1,
    wg := w.wg,
    trace := w.trace ++ [Event.mkdirAll (filepathDir (env.absPathOf change.Path))] }

/-- `localAdd` up to its `return` (pull.go:111-123). -/
def localAddBody (env : Env) (change : Change) (w : World) : World × Option Err :=
  let destAbsPath := env.absPathOf change.Path
  let w1 := mkParents env change w
  let step (w2 : World) : World × Option Err :=
    let w3 := w2.log (Event.chtimes destAbsPath change.Src.ModTime)
    let r := osChtimes destAbsPath change.Src.ModTime w3.fs
    ({ w3 with fs := r.1 }, r.2)
  if change.Src.IsDir then
    let w2 := w1.log (Event.mkdir destAbsPath)
    let r := osMkdir env.now destAbsPath w2.fs
    ({ w2 with fs := r.1 }, r.2)
  else if change.Src.BlobAt ≠ "" then
    match download env change w1 with
    | (w2, some e) => (w2, some e)
    | (w2, none) => step w2
  else step w1

/-- `localDelete` up to its `return` (pull.go:129). -/
def localDeleteBody (env : Env) (change : Change) (w : World) : World × Option Err :=
  let w1 := w.log (Event.removeAll change.Dest.BlobAt)
  let r := osRemoveAll env.now change.Dest.BlobAt w1.fs
  ({ w1 with fs := r.1 }, r.2)

/-- The deferred `wg.Done()`: it runs first, being deferred last. -/
def wgDone (w : World) : World :=
  { w.log Event.wgDone with wg := w.wg - 1 }

/-- The deferred `g.taskDone()`: it runs last, being deferred first. -/
def taskDone (w : World) : World :=
  w.log Event.taskDone

/-- The body of a handler, by entry point. -/
def handlerBody (env : Env) (h : Handler) (change : Change) (w : World) :
    World × Option Err :=
  match h with
  | Handler.localMod => localModBody env change w
  | Handler.localAdd => localAddBody env change w
  | Handler.localDelete => localDeleteBody env change w

/-- A whole call of a handler run without interruption: the body, then the
deferred `wg.Done()`, then the deferred `g.taskDone()`. -/
def runHandler (env : Env) (h : Handler) (change : Change) (w : World) :
    World × Option Err :=
  let r := handlerBody env h change w
  (taskDone (wgDone r.1), r.2)

/-- `localMod` (pull.go:95-106). -/
def localMod (env : Env) (change : Change) (w : World) : World × Option Err :=
  runHandler env Handler.localMod change w

/-- `localAdd` (pull.go:108-124). -/
def localAdd (env : Env) (change : Change) (w : World) : World × Option Err :=
  runHandler env Handler.localAdd change w

/-- `localDelete` (pull.go:126-130). -/
def localDelete (env : Env) (change : Change) (w : World) : World × Option Err :=
  runHandler env Handler.localDelete change w

/-! ## `playPullChangeList`

The function runs in one goroutine and starts one goroutine per change of a
window.  Its execution is a sequence of atomic steps of these goroutines, in an
order chosen by the scheduler.  A handler takes two steps: its body together
with the deferred `wg.Done()`, and the deferred `g.taskDone()`, which comes
after `wg.Done()` and so may run after `wg.Wait()` has let the loop go on.  The
filesystem and remote calls of one body are not interleaved with those of
another: the changes of a window are taken to touch independent paths.  Each
iteration declares a fresh `sync.WaitGroup`; since the loop leaves an iteration
only when its counter is zero, one counter in the state stands for the
`WaitGroup` of the current window. -/

/-- `maxNumOfConcPullTasks` (pull.go:28). -/
def maxNumOfConcPullTasks : Nat := 4

/-- Where the goroutine of `playPullChangeList` stands. -/
inductive Status where
  | loopHead
  | waiting
  | returned (err : Option Err)
  deriving DecidableEq, Repr

/-- State of an execution of `playPullChangeList`. -/
structure Exec where
  /-- filesystem, `WaitGroup` counter and log -/
  w : World
  /-- the variable `cl` -/
  cl : List Change
  /-- the named result `err` -/
  err : Option Err
  /-- the values `next` has taken at `wg.Add`, oldest first -/
  windows : List (List Change)
  /-- goroutines started whose body has not run yet -/
  started : List (Handler × Change)
  /-- goroutines past `wg.Done()` whose `g.taskDone()` has not run yet -/
  deferred : Nat
  /-- the goroutine of `playPullChangeList` -/
  status : Status

/-- The `switch c.Op()` of pull.go:79-86: the goroutine started for a change,
none when the operation is not one of the three cases. -/
def dispatch (c : Change) : Option Handler :=
  match c.op with
  | Operation.OpMod => some Handler.localMod
  | Operation.OpAdd => some Handler.localAdd
  | Operation.OpDelete => some Handler.localDelete
  | Operation.other _ => none

/-- The `for _, c := range next` loop (pull.go:78-87): each `go` statement is
logged and its goroutine added to those started. -/
def launchAll : List Change → World × List (Handler × Change) →
    World × List (Handler × Change)
  | [], acc => acc
  | c :: rest, (w, started) =>
    match dispatch c with
    | some h => launchAll rest (w.log (Event.go h c), started ++ [(h, c)])
    | none => launchAll rest (w, started)

/-- One step of the goroutine of `playPullChangeList`: from the loop head, one
iteration up to `wg.Wait()`, or the `break`, `g.taskFinish()` and `return err`;
at `wg.Wait()`, going on when the counter is zero and staying otherwise. -/
def mainStep (s : Exec) : Exec :=
  match s.status with
  | Status.returned _ => s
  | Status.waiting => if s.w.wg = 0 then { s with status := Status.loopHead } else s
  | Status.loopHead =>
    let sliced : List Change × List Change :=
      if s.cl.length > maxNumOfConcPullTasks then
        (s.cl.take maxNumOfConcPullTasks, s.cl.drop maxNumOfConcPullTasks)
      else (s.cl, [])
    let next := sliced.1
    if next.length = 0 then
      { s with cl := sliced.2, w := s.w.log Event.taskFinish,
               status := Status.returned s.err }
    else
      let w1 : World := { s.w.log (Event.wgAdd next.length) with wg := (next.length : Int) }
      let r := launchAll next (w1, s.started)
      { s with cl := sliced.2, w := r.1, started := r.2,
               windows := s.windows ++ [next], status := Status.waiting }

/-- One step of a started goroutine: the body of the handler, whose result the
`go` statement drops, then the deferred `wg.Done()`. -/
def bodyStep (env : Env) (i : Nat) (s : Exec) : Exec :=
  match s.started.get? (i % s.started.length) with
  | none => s
  | some (h, c) =>
    { s with w := wgDone (handlerBody env h c s.w).1,
             started := s.started.eraseIdx (i % s.started.length),
             deferred := s.deferred + 1 }

/-- The deferred `g.taskDone()` of a goroutine past its `wg.Done()`. -/
def doneStep (s : Exec) : Exec :=
  if s.deferred = 0 then s
  else { s with w := taskDone s.w, deferred := s.deferred - 1 }

/-- A choice of the scheduler: the goroutine of `playPullChangeList`, the body
of the started goroutine of a given index, or a pending `g.taskDone()`. -/
inductive Choice where
  | main
  | body (i : Nat)
  | done
  deriving DecidableEq, Repr

/-- The step chosen; a choice that cannot run leaves the state as it is. -/
def step (env : Env) (s : Exec) (c : Choice) : Exec :=
  match c with
  | Choice.main => mainStep s
  | Choice.body i => bodyStep env i s
  | Choice.done => doneStep s

/-- Entry of `playPullChangeList`: `g.taskStart(len(cl))`, then the loop head. -/
def enter (cl : List Change) (w : World) : Exec :=
  { w := w.log (Event.taskStart cl.length), cl := cl, err := none, windows := [],
    started := [], deferred := 0, status := Status.loopHead }

/-- `playPullChangeList` (pull.go:61-93) under a schedule: the state reached
after the steps chosen by `sched`. -/
def playPullChangeList (env : Env) (sched : List Choice) (cl : List Change)
    (w : World) : Exec :=
  sched.foldl (step env) (enter cl w)

/-- One round of a schedule that lets every goroutine finish before the next
step of the loop: the loop step, four bodies, four `g.taskDone()`, and the
release of the barrier. -/
def round : List Choice :=
  [Choice.main, Choice.body 0, Choice.body 0, Choice.body 0, Choice.body 0,
   Choice.done, Choice.done, Choice.done, Choice.done, Choice.main]

/-- A schedule of `n` such rounds. -/
def roundRobin : Nat → List Choice
  | 0 => []
  | n + 1 => round ++ roundRobin n

/-- One round of a schedule that delays every `g.taskDone()`: the loop step,
four bodies and the release of the barrier. -/
def lateRound : List Choice :=
  [Choice.main, Choice.body 0, Choice.body 0, Choice.body 0, Choice.body 0, Choice.main]

/-- A schedule of `n` such rounds. -/
def lateDone : Nat → List Choice
  | 0 => []
  | n + 1 => lateRound ++ lateDone n

/-! ## Properties read off states and logs -/

/-- The filesystem `fs1` has every entry of `fs`, with the same kind and
content; modification times may differ and entries may have been added. -/
def Grows (fs fs1 : FS) : Prop :=
  ∀ q n, fs q = some n → ∃ n1, fs1 q = some n1 ∧ n1.isDir = n.isDir ∧ n1.content = n.content

/-- Every regular file of `fs1`, the root apart, is in `fs` as it is. -/
def KeepsFiles (fs fs1 : FS) : Prop :=
  ∀ q n, q ≠ [] → fs1 q = some n → n.isDir = false → fs q = some n

/-- An element of a path that is a name: not empty, without separator, and
neither `.` nor `..`. -/
def isName (c : String) : Prop :=
  c.data ≠ [] ∧ '/' ∉ c.data ∧ c ≠ "." ∧ c ≠ ".."

instance (c : String) : Decidable (isName c) := by
  unfold isName
  infer_instance

/-- The call is an `os.Chtimes`. -/
def isChtimes : Event → Bool
  | Event.chtimes _ _ => true
  | _ => false

/-- The call belongs to a content transfer: creating the destination file,
asking the remote client for a stream, copying, or closing either end. -/
def isTransfer : Event → Bool
  | Event.create _ => true
  | Event.remDownload _ => true
  | Event.copy _ => true
  | Event.closeFile _ => true
  | Event.closeBlob _ => true
  | _ => false

/-- The call is made by the filesystem or remote part of a handler body, as
opposed to the calls on the progress tracker, the `WaitGroup` and `go`. -/
def isOsCall : Event → Bool
  | Event.mkdirAll _ => true
  | Event.mkdir _ => true
  | Event.chtimes _ _ => true
  | Event.removeAll _ => true
  | Event.create _ => true
  | Event.closeFile _ => true
  | Event.remDownload _ => true
  | Event.copy _ => true
  | Event.closeBlob _ => true
  | _ => false

/-- The `go` statements of a log, in order: entry point and change. -/
def launches : List Event → List (Handler × Change)
  | [] => []
  | Event.go h c :: t => (h, c) :: launches t
  | _ :: t => launches t

/-- The calls logged since the entry of `playPullChangeList` in state `w0`,
the `g.taskStart` included. -/
def runLog (w0 : World) (s : Exec) : List Event :=
  s.w.trace.drop w0.trace.length

/-- Number of changes of a window for which the switch starts no goroutine. -/
def unhandled (win : List Change) : Nat :=
  win.countP (fun c => (dispatch c).isNone)

/-- Every change of the list has one of the three operations of the switch. -/
def allHandled (cl : List Change) : Bool :=
  cl.all (fun c => (dispatch c).isSome)

/-- The `i`-th run of four consecutive changes of `cl`, counted from 0. -/
def chunk (cl : List Change) (i : Nat) : List Change :=
  (cl.drop (maxNumOfConcPullTasks * i)).take maxNumOfConcPullTasks

/-- The handler the claim names for a change: `localAdd` for `OpAdd`,
`localMod` for `OpMod`, `localDelete` for `OpDelete`. -/
def matchesOp (h : Handler) (c : Change) : Prop :=
  (c.op = Operation.OpAdd → h = Handler.localAdd) ∧
  (c.op = Operation.OpMod → h = Handler.localMod) ∧
  (c.op = Operation.OpDelete → h = Handler.localDelete)

/-- The goroutine the switch starts for a change, with the change. -/
def launchOf (c : Change) : Option (Handler × Change) :=
  (dispatch c).map (fun h => (h, c))

/-- A state change that keeps the counter and only appends filesystem and
remote calls to the log. -/
def Frame (w w1 : World) : Prop :=
  w1.wg = w.wg ∧ ∃ evs, w1.trace = w.trace ++ evs ∧ ∀ e ∈ evs, isOsCall e = true

/-- Invariant of the loop: the windows taken so far are the first runs of four
of the list, `cl` is what is left of it, the last window taken is not empty,
the named result is still nil, and the function returns with `cl` empty. -/
def InvWin (cl0 : List Change) (s : Exec) : Prop :=
  s.windows = (List.range s.windows.length).map (chunk cl0) ∧
  s.cl = cl0.drop (maxNumOfConcPullTasks * s.windows.length) ∧
  maxNumOfConcPullTasks * s.windows.length < cl0.length + maxNumOfConcPullTasks ∧
  s.err = none ∧
  (∀ e, s.status = Status.returned e → e = none ∧ s.cl = [])

/-- Invariant of the barrier: while the loop waits, the counter is the number
of started goroutines whose body has not run plus the number of changes of the
window without goroutine; otherwise no such goroutine is left and no window
taken so far holds a change without goroutine. -/
def InvBar (s : Exec) : Prop :=
  (s.status = Status.waiting →
    ∃ last, s.windows.getLast? = some last ∧
      s.w.wg = (s.started.length : Int) + (unhandled last : Int)) ∧
  (s.status ≠ Status.waiting → s.started = [] ∧ ∀ win ∈ s.windows, unhandled win = 0) ∧
  (∀ win ∈ s.windows.dropLast, unhandled win = 0)

/-- Invariant of the log: it starts with `g.taskStart(len(cl))`; the `go`
statements are those of the windows taken, in order; every goroutine started
has run its body and `wg.Done()` or is still to run it, and has called
`g.taskDone()` or is still to call it; `g.taskFinish()` is logged at the return
and only then, followed by nothing but late `g.taskDone()` calls. -/
def InvLog (w0 : World) (cl0 : List Change) (s : Exec) : Prop :=
  ∃ t, s.w.trace = w0.trace ++ Event.taskStart cl0.length :: t ∧
    launches t = s.windows.flatten.filterMap launchOf ∧
    t.count Event.taskDone + s.deferred + s.started.length = (launches t).length ∧
    t.count Event.wgDone + s.started.length = (launches t).length ∧
    (∀ n, Event.taskStart n ∉ t) ∧
    ((∀ e, s.status ≠ Status.returned e) → Event.taskFinish ∉ t) ∧
    (∀ e, s.status = Status.returned e →
      ∃ pre d, t = pre ++ Event.taskFinish :: List.replicate d Event.taskDone ∧
        Event.taskFinish ∉ pre ∧ launches pre = launches t)

/-! ## Concrete inputs -/

/-- A file record with nothing set. -/
def exFile : File := { Id := "", BlobAt := "", IsDir := false, ModTime := 0 }

/-- A change at `p` with operation `o`: remote content `id1` at `u1`, remote
modification time 7, local file `/r/p`. -/
def exChange (p : String) (o : Operation) : Change :=
  { Path := p, op := o,
    Src := { Id := "id1", BlobAt := "u1", IsDir := false, ModTime := 7 },
    Dest := { Id := "", BlobAt := "/r/" ++ p, IsDir := false, ModTime := 3 } }

/-- An environment rooted at `/r` whose remote serves the bytes 1, 2 for every
id except `bad`, for which the request fails. -/
def exEnv : Env :=
  { absPathOf := fun p => "/r/" ++ p,
    remDownload := fun id =>
      if id = "bad" then Except.error (Err.remote "unavailable")
      else Except.ok { bytes := [1, 2], fail := none },
    closeErr := fun _ => none,
    now := 0 }

/-- A filesystem holding the directory `/r` and the file `/r/a` with content
9 and modification time 3. -/
def exFS : FS := fun q =>
  if q = ["r"] then some { isDir := true, content := [], modTime := 1 }
  else if q = ["r", "a"] then some { isDir := false, content := [9], modTime := 3 }
  else none

/-- An Add of the directory `d` that carries no content reference. -/
def exDirAdd : Change :=
  { Path := "d", op := Operation.OpAdd,
    Src := { Id := "id2", BlobAt := "", IsDir := true, ModTime := 7 },
    Dest := exFile }

/-- A change at `p` with operation `o` whose remote content cannot be
fetched. -/
def exBadChange (p : String) (o : Operation) : Change :=
  { Path := p, op := o,
    Src := { Id := "bad", BlobAt := "u2", IsDir := false, ModTime := 7 },
    Dest := exFile }

/-- A change at `p` with operation `o` that carries no content reference. -/
def exMetaChange (p : String) (o : Operation) : Change :=
  { Path := p, op := o,
    Src := { Id := "id3", BlobAt := "", IsDir := false, ModTime := 7 },
    Dest := exFile }

/-- Five Adds on distinct paths. -/
def exFive : List Change :=
  [exChange "a" Operation.OpAdd, exChange "b" Operation.OpAdd, exChange "c" Operation.OpAdd,
   exChange "d" Operation.OpAdd, exChange "e" Operation.OpAdd]

/-- Five changes, the first with an operation that is none of the three. -/
def exBlocked : List Change :=
  [exChange "a" (Operation.other 0), exChange "b" Operation.OpAdd,
   exChange "c" Operation.OpAdd, exChange "d" Operation.OpAdd, exChange "e" Operation.OpAdd]

/-- An Add, a Modify and a Delete. -/
def exMixed : List Change :=
  [exChange "a" Operation.OpAdd, exChange "b" Operation.OpMod,
   exChange "c" Operation.OpDelete]

/-- A Modify whose transfer fails, followed by an Add that succeeds. -/
def exFailing : List Change :=
  [exBadChange "a" Operation.OpMod, exChange "b" Operation.OpAdd]

/-- A Modify of `/r/a` without content reference whose remote modification
time is `t`. -/
def exTimeChange (t : Int) : Change :=
  { Path := "a", op := Operation.OpMod,
    Src := { Id := "id3", BlobAt := "", IsDir := false, ModTime := t },
    Dest := exFile }

/-- An Add of the directory `p/q/d`, whose parents `/r/p` and `/r/p/q` do not
exist. -/
def exDeepDirAdd : Change :=
  { Path := "p/q/d", op := Operation.OpAdd,
    Src := { Id := "id2", BlobAt := "u", IsDir := true, ModTime := 7 },
    Dest := exFile }

/-- A Delete of the local path `p`. -/
def exDelete (p : String) : Change :=
  { Path := "x", op := Operation.OpDelete, Src := exFile,
    Dest := { Id := "", BlobAt := p, IsDir := false, ModTime := 3 } }

/-- The state before a run: `exFS`, a zero counter and an empty log. -/
def exWorld : World := { fs := exFS, wg := 0, trace := [] }

/-! ## Path resolution -/

theorem log_fs (w : World) (e : Event) : (w.log e).fs = w.fs := rfl

theorem resolveLex_append (cur : Path) (a b : List String) :
    resolveLex cur (a ++ b) = resolveLex (resolveLex cur a) b := by
  induction a generalizing cur with
  | nil => rfl
  | cons c rest ih =>
    simp only [List.cons_append, resolveLex]
    split_ifs
    all_goals exact ih _

/-- A walk that succeeds ends where the elements lead. -/
theorem walkDirs_found (fs : FS) (cur : Path) (ps : List String) (q : Path)
    (h : walkDirs fs cur ps = Resolved.found q) : q = resolveLex cur ps := by
  induction ps generalizing cur with
  | nil =>
    simp only [walkDirs, Resolved.found.injEq] at h
    exact h.symm
  | cons c rest ih =>
    simp only [walkDirs] at h
    simp only [resolveLex]
    split_ifs at h ⊢ with h1 h2 h3 h4
    · exact ih _ h
    · exact ih _ h
    · exact ih _ h

/-- A list with a last element is its other elements followed by it. -/
theorem split_last (ps : List String) (last : String) (h : ps.getLast? = some last) :
    ps = ps.dropLast ++ [last] :=
  (List.dropLast_append_getLast? last h).symm

/-- The location named by a path whose leading elements walk to `dir` and
whose last element is a name. -/
theorem components_of_walk (fs : FS) (p : String) (last : String) (dir : Path)
    (hl : (pieces p).getLast? = some last)
    (hw : walkDirs fs [] (pieces p).dropLast = Resolved.found dir)
    (h1 : last ≠ ".") (h2 : last ≠ "..") : components p = dir ++ [last] := by
  unfold components
  rw [split_last _ _ hl, resolveLex_append, ← walkDirs_found fs [] _ dir hw]
  simp [resolveLex, h1, h2]

/-! ## `download` and the handlers -/

theorem osCreate_ok (now : Int) (p : String) (fs : FS)
    (h : (osCreate now p fs).2 = none) :
    (osCreate now p fs).1 (components p) =
      some { isDir := false, content := [], modTime := now } := by
  unfold osCreate at h ⊢
  by_cases h0 : p = ""
  · simp [h0] at h
  · simp only [h0, if_false] at h ⊢
    rcases hl : (pieces p).getLast? with _ | last
    · simp [hl] at h
    · simp only [hl] at h ⊢
      rcases hw : walkDirs fs [] (pieces p).dropLast with dir | e
      · simp only [hw] at h ⊢
        by_cases h1 : last = "." ∨ last = ".."
        · simp [h1] at h
        · have hc := components_of_walk fs p last dir hl hw (fun x => h1 (Or.inl x))
            (fun x => h1 (Or.inr x))
          simp only [h1, if_false] at h ⊢
          by_cases h2 : endsWithSlash p = true
          · simp [h2] at h
          · simp only [h2] at h ⊢
            by_cases h3 : isDirAt fs (dir ++ [last]) = true
            · simp [h3] at h
            · simp only [h3] at h ⊢
              by_cases h4 : existsAt fs (dir ++ [last]) = true
              · simp [h4, hc, FS.set]
              · simp [h4, hc, FS.set]
      · simp [hw] at h

/-- Result of `download` by cases on creation and on the remote request. -/
theorem download_cases (env : Env) (change : Change) (w : World) :
    download env change w =
      match osCreate env.now (env.absPathOf change.Path) w.fs with
      | (_, some e) => (w.log (Event.create (env.absPathOf change.Path)), some e)
      | (fs1, none) =>
        match env.remDownload change.Src.Id with
        | Except.error e =>
          ({ fs := fs1, wg := w.wg,
             trace := w.trace ++ [Event.create (env.absPathOf change.Path),
               Event.remDownload change.Src.Id,
               Event.closeFile (env.absPathOf change.Path)] }, some e)
        | Except.ok blob =>
          ({ fs := writeAt fs1 (components (env.absPathOf change.Path)) blob.bytes,
             wg := w.wg,
             trace := w.trace ++ [Event.create (env.absPathOf change.Path),
               Event.remDownload change.Src.Id,
               Event.copy (env.absPathOf change.Path),
               Event.closeBlob change.Src.Id,
               Event.closeFile (env.absPathOf change.Path)] }, blob.fail) := by
  unfold download
  simp only [log_fs]
  rcases hc : osCreate env.now (env.absPathOf change.Path) w.fs with ⟨fs1, _ | e⟩
  · simp only
    rcases hr : env.remDownload change.Src.Id with e | blob
    · simp only [World.log, List.append_assoc, List.singleton_append]
      cases env.closeErr (env.absPathOf change.Path) <;> rfl
    · simp only [World.log, List.append_assoc, List.singleton_append]
      cases env.closeErr (env.absPathOf change.Path) <;> rfl
  · rfl

/-- Claim C8: `download` returns no error exactly when creating the
destination, obtaining the remote stream and copying it all succeed; the result
of closing the destination handle changes neither the error returned nor the
filesystem; and on success the destination file holds exactly the bytes of the
remote stream, whatever it held before. -/
theorem download_success_iff (env : Env) (change : Change) (w : World) :
    ((download env change w).2 = none ↔
      ((osCreate env.now (env.absPathOf change.Path) w.fs).2 = none ∧
        ∃ blob, env.remDownload change.Src.Id = Except.ok blob ∧ blob.fail = none)) ∧
    (∀ closeErr2 : String → Option Err,
      (download { env with closeErr := closeErr2 } change w).2 = (download env change w).2 ∧
      (download { env with closeErr := closeErr2 } change w).1.fs = (download env change w).1.fs) ∧
    ((download env change w).2 = none →
      ∃ blob, env.remDownload change.Src.Id = Except.ok blob ∧
        (download env change w).1.fs (components (env.absPathOf change.Path)) =
          some { isDir := false, content := blob.bytes, modTime := env.now }) := by
  refine ⟨?_, ?_, ?_⟩
  · rw [download_cases]
    rcases hc : osCreate env.now (env.absPathOf change.Path) w.fs with ⟨fs1, _ | e⟩
    · rcases hr : env.remDownload change.Src.Id with e | blob
      · simp
      · simp
    · simp
  · intro closeErr2
    rw [download_cases, download_cases]
    exact ⟨rfl, rfl⟩
  · intro h
    have hcr := osCreate_ok env.now (env.absPathOf change.Path) w.fs
    rw [download_cases] at h ⊢
    rcases hc : osCreate env.now (env.absPathOf change.Path) w.fs with ⟨fs1, _ | e⟩
    · rw [hc] at h hcr
      rcases hr : env.remDownload change.Src.Id with e | blob
      · rw [hr] at h; simp at h
      · refine ⟨blob, rfl, ?_⟩
        simp only at hcr ⊢
        simp [writeAt, hcr trivial, FS.set]
    · rw [hc] at h; simp at h

/-- Witness of C8 on the file `/r/a`, whose former content 9 is replaced. -/
theorem download_success_iff_witness :
    ∃ blob, exEnv.remDownload (exChange "a" Operation.OpMod).Src.Id = Except.ok blob ∧
      (download exEnv (exChange "a" Operation.OpMod) exWorld).1.fs
          (components (exEnv.absPathOf (exChange "a" Operation.OpMod).Path)) =
        some { isDir := false, content := blob.bytes, modTime := exEnv.now } :=
  (download_success_iff exEnv (exChange "a" Operation.OpMod) exWorld).2.2 (by decide)

/-! ## `localDelete` -/

theorem touch_apply (t : Int) (fs : FS) (q r : Path) :
    touch t fs q r =
      if r = q then (fs q).map (fun n => { n with modTime := t }) else fs r := by
  unfold touch
  cases h : fs q with
  | none => by_cases hr : r = q <;> simp [hr, h]
  | some n => by_cases hr : r = q <;> simp [hr, FS.set]

theorem touch_isDirAt (t : Int) (fs : FS) (q r : Path) :
    isDirAt (touch t fs q) r = isDirAt fs r := by
  unfold isDirAt
  rw [touch_apply]
  by_cases hr : r = q
  · subst hr
    cases h : fs r <;> simp
  · simp [hr]

theorem touch_existsAt (t : Int) (fs : FS) (q r : Path) :
    existsAt (touch t fs q) r = existsAt fs r := by
  unfold existsAt
  rw [touch_apply]
  by_cases hr : r = q
  · subst hr
    cases h : fs r <;> simp
  · simp [hr]

theorem removeAt_apply (fs : FS) (t q : Path) :
    removeAt fs t q = if t <+: q then none else fs q := by
  unfold removeAt
  by_cases h : t <+: q
  · simp [h, List.isPrefixOf_iff_prefix.mpr h]
  · have : t.isPrefixOf q = false := by
      rw [← Bool.not_eq_true, List.isPrefixOf_iff_prefix]; exact h
    simp [h, this]

/-- After the removal of the entry at `t`, a walk that succeeded before ends at
the same place or stops at a missing element. -/
theorem walkDirs_removeAt (now : Int) (fs : FS) (t par : Path)
    (cur : Path) (ps : List String) (d : Path)
    (h : walkDirs fs cur ps = Resolved.found d) :
    walkDirs (touch now (removeAt fs t) par) cur ps = Resolved.found d ∨
    walkDirs (touch now (removeAt fs t) par) cur ps = Resolved.failed Err.ENOENT := by
  induction ps generalizing cur with
  | nil => left; simpa [walkDirs] using h
  | cons c rest ih =>
    simp only [walkDirs] at h ⊢
    by_cases h1 : c = "."
    · simp only [h1, if_true] at h ⊢
      exact ih _ h
    · simp only [h1, if_false] at h ⊢
      by_cases h2 : c = ".."
      · simp only [h2, if_true] at h ⊢
        exact ih _ h
      · simp only [h2, if_false] at h ⊢
        by_cases h3 : isDirAt fs (cur ++ [c]) = true
        · simp only [h3, if_true] at h
          by_cases hp : t <+: cur ++ [c]
          · right
            have hn : (touch now (removeAt fs t) par) (cur ++ [c]) = none := by
              rw [touch_apply]
              by_cases hq : cur ++ [c] = par
              · rw [if_pos hq, ← hq, removeAt_apply, if_pos hp]
                rfl
              · rw [if_neg hq, removeAt_apply, if_pos hp]
            have hd : isDirAt (touch now (removeAt fs t) par) (cur ++ [c]) = false := by
              unfold isDirAt; rw [hn]; simp
            have he : existsAt (touch now (removeAt fs t) par) (cur ++ [c]) = false := by
              unfold existsAt; rw [hn]; simp
            simp [hd, he]
          · have hd : isDirAt (touch now (removeAt fs t) par) (cur ++ [c]) = true := by
              rw [touch_isDirAt]
              unfold isDirAt at h3 ⊢
              rw [removeAt_apply]
              simpa [hp] using h3
            simp only [hd, if_true]
            exact ih _ h
        · by_cases h4 : existsAt fs (cur ++ [c]) = true
          · simp [h3, h4] at h
          · simp [h3, h4] at h

/-- `os.RemoveAll` on a path that names nothing, for want of an element. -/
theorem osRemoveAll_absent (now : Int) (p : String) (fs : FS)
    (hdot : endsWithDot p = false)
    (h : lookupPath fs p = Resolved.failed Err.ENOENT) :
    osRemoveAll now p fs = (fs, none) := by
  unfold osRemoveAll
  unfold lookupPath lookupPieces at h
  by_cases h0 : p = ""
  · simp [h0]
  · simp only [h0, if_false, hdot, Bool.false_eq_true] at h ⊢
    rcases hl : (pieces p).getLast? with _ | last
    · simp [hl] at h
    · simp only [hl] at h ⊢
      rcases hw : walkDirs fs [] (pieces p).dropLast with dir | e
      · simp only [hw] at h ⊢
        by_cases h1 : last = "."
        · simp [h1] at h
        · by_cases h2 : last = ".."
          · simp [h1, h2] at h
          · by_cases h3 : isDirAt fs (dir ++ [last]) = true
            · simp [h1, h2, h3] at h
            · by_cases h4 : existsAt fs (dir ++ [last]) = true
              · by_cases hs : endsWithSlash p = true
                · simp [h1, h2, h3, h4, hs] at h
                · simp [h1, h2, h3, h4, hs] at h
              · simp [h1, h2, h4]
      · simp only [hw, Resolved.failed.injEq] at h
        subst h
        simp [hw]

/-- `os.RemoveAll` on a path that names an entry by a last element that is a
name. -/
theorem osRemoveAll_entry (now : Int) (p : String) (fs : FS) (last : String) (t : Path)
    (hdot : endsWithDot p = false) (hl : (pieces p).getLast? = some last)
    (h1 : last ≠ ".") (h2 : last ≠ "..")
    (h : lookupPath fs p = Resolved.found t) :
    walkDirs fs [] (pieces p).dropLast = Resolved.found t.dropLast ∧
    t = t.dropLast ++ [last] ∧ existsAt fs t = true ∧
    osRemoveAll now p fs = (touch now (removeAt fs t) t.dropLast, none) := by
  unfold osRemoveAll
  unfold lookupPath lookupPieces at h
  by_cases h0 : p = ""
  · simp [h0] at h
  · simp only [h0, if_false, hdot, Bool.false_eq_true, hl] at h ⊢
    rcases hw : walkDirs fs [] (pieces p).dropLast with dir | e
    · simp only [hw, h1, h2, if_false] at h ⊢
      by_cases h3 : isDirAt fs (dir ++ [last]) = true
      · simp only [h3, if_true, Resolved.found.injEq] at h
        subst h
        have he : existsAt fs (dir ++ [last]) = true := by
          unfold isDirAt at h3
          unfold existsAt
          cases hf : fs (dir ++ [last]) <;> simp_all
        simp [he]
      · by_cases h4 : existsAt fs (dir ++ [last]) = true
        · by_cases hs : endsWithSlash p = true
          · simp [h3, h4, hs] at h
          · simp only [h3, h4, hs, if_true, if_false, Bool.false_eq_true,
              Resolved.found.injEq] at h
            subst h
            simp [h4]
        · simp [h3, h4] at h
    · simp [hw] at h

theorem localDelete_eq (env : Env) (c : Change) (w : World) :
    (localDelete env c w).1.fs = (osRemoveAll env.now c.Dest.BlobAt w.fs).1 ∧
    (localDelete env c w).2 = (osRemoveAll env.now c.Dest.BlobAt w.fs).2 :=
  ⟨rfl, rfl⟩

theorem removed_apply (now : Int) (fs : FS) (t q : Path) (ht : t <+: q) (hne : t ≠ []) :
    touch now (removeAt fs t) t.dropLast q = none := by
  have hq : q ≠ t.dropLast := by
    intro hq
    have h1 := ht.length_le
    rw [hq, List.length_dropLast] at h1
    have : 0 < t.length := List.length_pos.mpr hne
    omega
  rw [touch_apply, if_neg hq, removeAt_apply, if_pos ht]

/-- After the removal of the entry a path names, the path names nothing. -/
theorem lookupPath_removed (now : Int) (p : String) (fs : FS) (last : String) (t : Path)
    (hl : (pieces p).getLast? = some last) (h1 : last ≠ ".") (h2 : last ≠ "..")
    (h0 : p ≠ "") (ht : t = t.dropLast ++ [last])
    (hw : walkDirs fs [] (pieces p).dropLast = Resolved.found t.dropLast) :
    lookupPath (touch now (removeAt fs t) t.dropLast) p = Resolved.failed Err.ENOENT := by
  have hne : t ≠ [] := by
    intro h
    rw [h] at ht
    simp at ht
  unfold lookupPath lookupPieces
  simp only [h0, if_false, hl]
  rcases walkDirs_removeAt now fs t t.dropLast [] _ _ hw with hw2 | hw2
  · have hn : touch now (removeAt fs t) t.dropLast (t.dropLast ++ [last]) = none := by
      rw [← ht]
      exact removed_apply now fs t t (List.prefix_refl t) hne
    have hd : isDirAt (touch now (removeAt fs t) t.dropLast) (t.dropLast ++ [last]) = false := by
      unfold isDirAt; rw [hn]; simp
    have he : existsAt (touch now (removeAt fs t) t.dropLast) (t.dropLast ++ [last]) = false := by
      unfold existsAt; rw [hn]; simp
    simp [hw2, h1, h2, hd, he]
  · simp [hw2]

/-- Counterexample to claim C7 as stated.  A Delete of `/r/a/b`, a path that
names nothing because `/r/a` is a regular file, fails with `ENOTDIR`.  A Delete
of `/r/.` fails with `EINVAL` and leaves the directory it names.  A Delete of
the file `/r/a` changes another entry: the modification time of `/r`. -/
theorem localDelete_absent_error :
    (existsPath exWorld.fs (exDelete "/r/a/b").Dest.BlobAt = false ∧
      (localDelete exEnv (exDelete "/r/a/b") exWorld).2 = some Err.ENOTDIR) ∧
    (existsPath exWorld.fs (exDelete "/r/.").Dest.BlobAt = true ∧
      (localDelete exEnv (exDelete "/r/.") exWorld).2 = some Err.EINVAL ∧
      existsPath (localDelete exEnv (exDelete "/r/.") exWorld).1.fs "/r/." = true) ∧
    (exWorld.fs ["r"] = some { isDir := true, content := [], modTime := 1 } ∧
      (localDelete exEnv (exDelete "/r/a") exWorld).1.fs ["r"] =
        some { isDir := true, content := [], modTime := 0 }) := by
  decide

/-- Claim C7, amended: for a Delete whose path `Dest.BlobAt` does not end in
`.`: when the path names nothing for want of an element (`os.Lstat` fails with
`ENOENT`), `localDelete` returns no error and leaves the filesystem as it is;
when it names an entry by a last element other than `.` and `..`,
`localDelete` returns no error, afterwards nothing is found at or beneath that
entry and the path names nothing, every other entry is as before except the
parent directory, which only takes a new modification time, and a second
application returns no error and leaves the filesystem of the first. -/
theorem localDelete_idempotent (env : Env) (change : Change) (w : World)
    (hdot : endsWithDot change.Dest.BlobAt = false) :
    (lookupPath w.fs change.Dest.BlobAt = Resolved.failed Err.ENOENT →
      (localDelete env change w).2 = none ∧ (localDelete env change w).1.fs = w.fs) ∧
    (∀ last t, (pieces change.Dest.BlobAt).getLast? = some last → last ≠ "." → last ≠ ".." →
      lookupPath w.fs change.Dest.BlobAt = Resolved.found t →
      (localDelete env change w).2 = none ∧
      (∀ q, t <+: q → (localDelete env change w).1.fs q = none) ∧
      (∀ q, ¬ t <+: q → q ≠ t.dropLast → (localDelete env change w).1.fs q = w.fs q) ∧
      (localDelete env change w).1.fs t.dropLast =
        (w.fs t.dropLast).map (fun n => { n with modTime := env.now }) ∧
      lookupPath (localDelete env change w).1.fs change.Dest.BlobAt =
        Resolved.failed Err.ENOENT ∧
      (localDelete env change (localDelete env change w).1).2 = none ∧
      (localDelete env change (localDelete env change w).1).1.fs =
        (localDelete env change w).1.fs) := by
  have habs : ∀ w1 : World, lookupPath w1.fs change.Dest.BlobAt = Resolved.failed Err.ENOENT →
      (localDelete env change w1).2 = none ∧ (localDelete env change w1).1.fs = w1.fs := by
    intro w1 h
    obtain ⟨e1, e2⟩ := localDelete_eq env change w1
    rw [e1, e2, osRemoveAll_absent env.now _ w1.fs hdot h]
    exact ⟨rfl, rfl⟩
  refine ⟨habs w, ?_⟩
  intro last t hl h1 h2 hfound
  obtain ⟨hw, ht, _, hrm⟩ := osRemoveAll_entry env.now _ w.fs last t hdot hl h1 h2 hfound
  have hne : t ≠ [] := by
    intro h
    rw [h] at ht
    simp at ht
  have h0 : change.Dest.BlobAt ≠ "" := by
    intro h
    rw [h] at hl
    simp [pieces, rawSplit, rawSplitAux] at hl
  obtain ⟨e1, e2⟩ := localDelete_eq env change w
  have hlook : lookupPath (localDelete env change w).1.fs change.Dest.BlobAt =
      Resolved.failed Err.ENOENT := by
    rw [e1, hrm]
    exact lookupPath_removed env.now _ w.fs last t hl h1 h2 h0 ht hw
  refine ⟨?_, ?_, ?_, ?_, hlook, (habs _ hlook).1, (habs _ hlook).2⟩
  · rw [e2, hrm]
  · intro q hq
    rw [e1, hrm]
    exact removed_apply env.now w.fs t q hq hne
  · intro q hq hpar
    rw [e1, hrm]
    simp only
    rw [touch_apply, if_neg hpar, removeAt_apply, if_neg hq]
  · rw [e1, hrm]
    simp only
    rw [touch_apply, if_pos rfl, removeAt_apply]
    have : ¬ t <+: t.dropLast := by
      intro h
      have h1 := h.length_le
      rw [List.length_dropLast] at h1
      have : 0 < t.length := List.length_pos.mpr hne
      omega
    rw [if_neg this]

/-- Witness of C7 amended: `/r/zz` is absent and `/r/a` is a file. -/
theorem localDelete_idempotent_witness :
    (lookupPath exWorld.fs (exDelete "/r/zz").Dest.BlobAt = Resolved.failed Err.ENOENT ∧
      (localDelete exEnv (exDelete "/r/zz") exWorld).2 = none ∧
      (localDelete exEnv (exDelete "/r/zz") exWorld).1.fs = exWorld.fs) ∧
    (lookupPath exWorld.fs (exDelete "/r/a").Dest.BlobAt = Resolved.found ["r", "a"] ∧
      (localDelete exEnv (exDelete "/r/a") exWorld).1.fs ["r", "a"] = none ∧
      (localDelete exEnv (exDelete "/r/a") (localDelete exEnv (exDelete "/r/a") exWorld).1).2 =
        none) :=
  ⟨⟨by decide,
    (localDelete_idempotent exEnv (exDelete "/r/zz") exWorld (by decide)).1 (by decide)⟩,
   by decide,
   ((localDelete_idempotent exEnv (exDelete "/r/a") exWorld (by decide)).2 "a" ["r", "a"]
      (by decide) (by decide) (by decide) (by decide)).2.1 ["r", "a"] (List.prefix_refl _),
   ((localDelete_idempotent exEnv (exDelete "/r/a") exWorld (by decide)).2 "a" ["r", "a"]
      (by decide) (by decide) (by decide) (by decide)).2.2.2.2.2.1⟩

/-! ## Directories made by `os.MkdirAll` and `os.Mkdir` -/

theorem grows_refl (fs : FS) : Grows fs fs := fun _ n h => ⟨n, h, rfl, rfl⟩

theorem grows_trans {a b c : FS} (h1 : Grows a b) (h2 : Grows b c) : Grows a c := by
  intro q n hq
  obtain ⟨n1, hn1, hd1, hc1⟩ := h1 q n hq
  obtain ⟨n2, hn2, hd2, hc2⟩ := h2 q n1 hn1
  exact ⟨n2, hn2, hd2.trans hd1, hc2.trans hc1⟩

theorem grows_isDirAt {fs fs1 : FS} (h : Grows fs fs1) (q : Path) :
    isDirAt fs1 q = isDirAt fs q ∨ fs q = none := by
  cases hq : fs q with
  | none => right; rfl
  | some n =>
    left
    obtain ⟨n1, hn1, hd, _⟩ := h q n hq
    unfold isDirAt
    rw [hq, hn1]
    simp [hd]

theorem grows_dir {fs fs1 : FS} (h : Grows fs fs1) (q : Path) (hd : isDirAt fs q = true) :
    isDirAt fs1 q = true := by
  by_cases h0 : q = []
  · subst h0; rfl
  · rcases grows_isDirAt h q with h1 | h1
    · rw [h1]; exact hd
    · unfold isDirAt at hd
      rw [h1] at hd
      simp [h0] at hd

theorem grows_exists {fs fs1 : FS} (h : Grows fs fs1) (q : Path)
    (he : existsAt fs q = true) : existsAt fs1 q = true := by
  by_cases h0 : q = []
  · subst h0; rfl
  · unfold existsAt at he ⊢
    cases hq : fs q with
    | none => rw [hq] at he; simp [h0] at he
    | some n =>
      obtain ⟨n1, hn1, _, _⟩ := h q n hq
      rw [hn1]; simp

theorem grows_touch (t : Int) (fs : FS) (q : Path) : Grows fs (touch t fs q) := by
  intro r n hr
  rw [touch_apply]
  by_cases h : r = q
  · subst h
    rw [if_pos rfl, hr]
    exact ⟨_, rfl, rfl, rfl⟩
  · rw [if_neg h]
    exact ⟨n, hr, rfl, rfl⟩

theorem grows_set_new (fs : FS) (q : Path) (n : Node) (h : fs q = none) :
    Grows fs (fs.set q (some n)) := by
  intro r m hr
  have : r ≠ q := by
    intro e
    rw [e, h] at hr
    exact Option.noConfusion hr
  exact ⟨m, by simp [FS.set, this, hr], rfl, rfl⟩

/-- A walk that succeeds still succeeds, to the same place, after entries were
added. -/
theorem walkDirs_grows {fs fs1 : FS} (h : Grows fs fs1) (cur : Path) (ps : List String)
    (d : Path) (hw : walkDirs fs cur ps = Resolved.found d) :
    walkDirs fs1 cur ps = Resolved.found d := by
  induction ps generalizing cur with
  | nil => simpa [walkDirs] using hw
  | cons c rest ih =>
    simp only [walkDirs] at hw ⊢
    by_cases h1 : c = "."
    · simp only [h1, if_true] at hw ⊢
      exact ih _ hw
    · by_cases h2 : c = ".."
      · simp only [h1, h2, if_true, if_false] at hw ⊢
        exact ih _ hw
      · by_cases h3 : isDirAt fs (cur ++ [c]) = true
        · simp only [h1, h2, h3, if_true, if_false] at hw
          simp only [h1, h2, grows_dir h _ h3, if_true, if_false]
          exact ih _ hw
        · by_cases h4 : existsAt fs (cur ++ [c]) = true
          · simp [h1, h2, h3, h4] at hw
          · simp [h1, h2, h3, h4] at hw

/-- A path that names an entry still names it after entries were added. -/
theorem lookupPath_grows {fs fs1 : FS} (h : Grows fs fs1) (p : String) (q : Path)
    (hl : lookupPath fs p = Resolved.found q) : lookupPath fs1 p = Resolved.found q := by
  unfold lookupPath lookupPieces at hl ⊢
  by_cases h0 : p = ""
  · simp [h0] at hl
  · simp only [h0, if_false] at hl ⊢
    rcases hg : (pieces p).getLast? with _ | last
    · simpa [hg] using hl
    · simp only [hg] at hl ⊢
      rcases hw : walkDirs fs [] (pieces p).dropLast with dir | e
      · simp only [hw] at hl
        simp only [walkDirs_grows h _ _ _ hw]
        by_cases h1 : last = "."
        · simpa [h1] using hl
        · by_cases h2 : last = ".."
          · simpa [h1, h2] using hl
          · by_cases h3 : isDirAt fs (dir ++ [last]) = true
            · simp only [h1, h2, h3, if_true, if_false] at hl
              simp only [h1, h2, grows_dir h _ h3, if_true, if_false]
              exact hl
            · by_cases h4 : existsAt fs (dir ++ [last]) = true
              · have hne : dir ++ [last] ≠ [] := by simp
                have h3' : isDirAt fs1 (dir ++ [last]) = false := by
                  rcases grows_isDirAt h (dir ++ [last]) with e | e
                  · rw [e]; simpa using h3
                  · unfold existsAt at h4
                    rw [e] at h4
                    simp at h4
                simp only [h1, h2, h3, h4, if_true, if_false] at hl
                simp only [h1, h2, h3', grows_exists h _ h4, if_true, if_false, Bool.false_eq_true]
                exact hl
              · simp [h1, h2, h3, h4] at hl
      · simp [hw] at hl

theorem mkdirPieces_grows (now : Int) (ps : List String) (fs : FS) :
    Grows fs (mkdirPieces now ps fs).1 := by
  unfold mkdirPieces
  rcases hg : ps.getLast? with _ | last
  · exact grows_refl fs
  · simp only
    rcases hw : walkDirs fs [] ps.dropLast with dir | e
    · simp only
      by_cases h1 : last = "." ∨ last = ".."
      · simp only [h1, if_true]; exact grows_refl fs
      · by_cases h2 : existsAt fs (dir ++ [last]) = true
        · simp only [h1, h2, if_true, if_false]; exact grows_refl fs
        · simp only [h1, h2, if_false]
          refine grows_trans (grows_touch now fs dir) (grows_set_new _ _ _ ?_)
          have hn : fs (dir ++ [last]) = none := by
            unfold existsAt at h2
            cases hf : fs (dir ++ [last]) with
            | none => rfl
            | some n => rw [hf] at h2; simp at h2
          rw [touch_apply]
          have : dir ++ [last] ≠ dir := by simp
          rw [if_neg this, hn]
    · exact grows_refl fs

theorem mkdirAllRev_grows (now : Int) (l : List String) (fs : FS) :
    Grows fs (mkdirAllRev now l fs).1 := by
  induction l generalizing fs with
  | nil => exact grows_refl fs
  | cons c rest ih =>
    unfold mkdirAllRev
    rcases hl : lookupPieces fs (c :: rest).reverse false with q | e
    · simp only
      split_ifs
      · exact grows_refl fs
      · exact grows_refl fs
    · simp only
      have h1 := ih fs
      rcases hr : mkdirAllRev now rest fs with ⟨fs1, _ | e1⟩
      · rw [hr] at h1
        simp only
        have h2 := mkdirPieces_grows now (c :: rest).reverse fs1
        rcases hm : mkdirPieces now (c :: rest).reverse fs1 with ⟨fs2, _ | e2⟩
        · rw [hm] at h2
          exact grows_trans h1 h2
        · rw [hm] at h2
          simp only
          rcases lookupPieces fs2 (c :: rest).reverse false with q2 | e3
          · simp only
            split_ifs
            · exact grows_trans h1 h2
            · exact grows_trans h1 h2
          · exact grows_trans h1 h2
      · rw [hr] at h1
        exact h1

theorem osMkdirAll_grows (now : Int) (p : String) (fs : FS) :
    Grows fs (osMkdirAll now p fs).1 := by
  unfold osMkdirAll
  split_ifs
  · exact grows_refl fs
  · exact mkdirAllRev_grows now _ fs

/-! ## `localMod` and `localAdd` -/

theorem runHandler_trace (env : Env) (h : Handler) (c : Change) (w : World) :
    (runHandler env h c w).1.trace =
      (handlerBody env h c w).1.trace ++ [Event.wgDone, Event.taskDone] := by
  simp [runHandler, taskDone, wgDone, World.log]

theorem runHandler_fs (env : Env) (h : Handler) (c : Change) (w : World) :
    (runHandler env h c w).1.fs = (handlerBody env h c w).1.fs := rfl

theorem runHandler_err (env : Env) (h : Handler) (c : Change) (w : World) :
    (runHandler env h c w).2 = (handlerBody env h c w).2 := rfl

theorem download_trace_chtimes (env : Env) (c : Change) (w : World) :
    (download env c w).1.trace.countP isChtimes = w.trace.countP isChtimes := by
  rw [download_cases]
  rcases osCreate env.now (env.absPathOf c.Path) w.fs with ⟨fs1, _ | e⟩
  · rcases env.remDownload c.Src.Id with e | blob
    · simp [List.countP_append, List.countP_cons, isChtimes]
    · simp [List.countP_append, List.countP_cons, isChtimes]
  · simp [World.log, List.countP_append, List.countP_cons, isChtimes]

theorem osChtimes_found (p : String) (t : Int) (fs : FS) (q : Path) (n : Node)
    (hl : lookupPath fs p = Resolved.found q) (hn : fs q = some n) (ht : t ≠ zeroTime) :
    (osChtimes p t fs).2 = none ∧
    (osChtimes p t fs).1 q = some { n with modTime := unixNano t } := by
  unfold osChtimes
  rw [hl]
  simp only [ht, if_false, true_and]
  rw [touch_apply, if_pos rfl, hn]
  rfl

/-- Counterexample to claim C4 as stated.  An Add of a directory with an empty
content reference makes no `os.Chtimes` call, and the directory keeps the time
of its creation, 0, not the remote time 7.  A Modify whose remote time is the
zero `time.Time` leaves the time of the file, 3, as it is, and one whose remote
time is `2 ^ 64` nanoseconds after 9 September 2001, beyond the `int64`
nanoseconds, stores that day of 2001.  An Add of a file that does not exist
creates nothing and fails in `os.Chtimes`. -/
theorem localAdd_dir_skips_chtimes :
    (exDirAdd.op = Operation.OpAdd ∧ exDirAdd.Src.BlobAt = "" ∧
      (localAdd exEnv exDirAdd exWorld).1.trace =
        [Event.mkdirAll "/r", Event.mkdir "/r/d", Event.wgDone, Event.taskDone] ∧
      (localAdd exEnv exDirAdd exWorld).1.trace.countP isChtimes = 0 ∧
      (localAdd exEnv exDirAdd exWorld).2 = none ∧
      (localAdd exEnv exDirAdd exWorld).1.fs ["r", "d"] =
        some { isDir := true, content := [], modTime := 0 }) ∧
    ((exTimeChange zeroTime).Src.BlobAt = "" ∧
      (localMod exEnv (exTimeChange zeroTime) exWorld).2 = none ∧
      (localMod exEnv (exTimeChange zeroTime) exWorld).1.fs ["r", "a"] =
        some { isDir := false, content := [9], modTime := 3 }) ∧
    ((localMod exEnv (exTimeChange (2 ^ 64 + 10 ^ 18)) exWorld).2 = none ∧
      (localMod exEnv (exTimeChange (2 ^ 64 + 10 ^ 18)) exWorld).1.fs ["r", "a"] =
        some { isDir := false, content := [9], modTime := 10 ^ 18 }) ∧
    ((exMetaChange "n" Operation.OpAdd).Src.IsDir = false ∧
      (exMetaChange "n" Operation.OpAdd).Src.BlobAt = "" ∧
      (localAdd exEnv (exMetaChange "n" Operation.OpAdd) exWorld).2 = some Err.ENOENT ∧
      (localAdd exEnv (exMetaChange "n" Operation.OpAdd) exWorld).1.fs ["r", "n"] = none) := by
  decide

/-- The effect of the `os.Chtimes` of a handler on a destination that exists. -/
theorem chtimes_effect (p : String) (t : Int) (fs0 fs : FS) (q : Path) (n : Node)
    (hg : Grows fs0 fs) (hl : lookupPath fs0 p = Resolved.found q) (hn : fs0 q = some n)
    (ht : t ≠ zeroTime) (hr : unixNano t = t) :
    (osChtimes p t fs).2 = none ∧
    (osChtimes p t fs).1 q = some { n with modTime := t } := by
  obtain ⟨n1, hn1, hd, hc⟩ := hg q n hn
  obtain ⟨e1, e2⟩ := osChtimes_found p t fs q n1 (lookupPath_grows hg p q hl) hn1 ht
  refine ⟨e1, ?_⟩
  rw [e2, hr]
  cases n1
  cases n
  simp_all

/-- Claim C4, amended: for a change with an empty `Src.BlobAt`, `localMod`, and
`localAdd` when `Src.IsDir` is false, make no call of a content transfer and
call `os.Chtimes` on `AbsPathOf(change.Path)` with `Src.ModTime`, whose result
they return; when the destination exists and `Src.ModTime` is not the zero time
and fits the `int64` nanoseconds, they return no error and the destination has
the modification time `Src.ModTime` afterwards, its kind and content kept. -/
theorem metadata_only_change (env : Env) (c : Change) (w : World)
    (h : c.Src.BlobAt = "") :
    ((localMod env c w).1.trace =
        w.trace ++ [Event.chtimes (env.absPathOf c.Path) c.Src.ModTime,
          Event.wgDone, Event.taskDone] ∧
      (localMod env c w).1.trace.countP isTransfer = w.trace.countP isTransfer ∧
      (localMod env c w).1.fs = (osChtimes (env.absPathOf c.Path) c.Src.ModTime w.fs).1 ∧
      (localMod env c w).2 = (osChtimes (env.absPathOf c.Path) c.Src.ModTime w.fs).2 ∧
      ∀ q n, lookupPath w.fs (env.absPathOf c.Path) = Resolved.found q → w.fs q = some n →
        c.Src.ModTime ≠ zeroTime → unixNano c.Src.ModTime = c.Src.ModTime →
        (localMod env c w).2 = none ∧
        (localMod env c w).1.fs q = some { n with modTime := c.Src.ModTime }) ∧
    (c.Src.IsDir = false →
      (localAdd env c w).1.trace =
        w.trace ++ [Event.mkdirAll (filepathDir (env.absPathOf c.Path)),
          Event.chtimes (env.absPathOf c.Path) c.Src.ModTime,
          Event.wgDone, Event.taskDone] ∧
      (localAdd env c w).1.trace.countP isTransfer = w.trace.countP isTransfer ∧
      (localAdd env c w).1.fs =
        (osChtimes (env.absPathOf c.Path) c.Src.ModTime
          (osMkdirAll env.now (filepathDir (env.absPathOf c.Path)) w.fs).1).1 ∧
      (localAdd env c w).2 =
        (osChtimes (env.absPathOf c.Path) c.Src.ModTime
          (osMkdirAll env.now (filepathDir (env.absPathOf c.Path)) w.fs).1).2 ∧
      ∀ q n, lookupPath w.fs (env.absPathOf c.Path) = Resolved.found q → w.fs q = some n →
        c.Src.ModTime ≠ zeroTime → unixNano c.Src.ModTime = c.Src.ModTime →
        (localAdd env c w).2 = none ∧
        (localAdd env c w).1.fs q = some { n with modTime := c.Src.ModTime }) := by
  have hm : localModBody env c w =
      ({ fs := (osChtimes (env.absPathOf c.Path) c.Src.ModTime w.fs).1, wg := w.wg,
         trace := w.trace ++ [Event.chtimes (env.absPathOf c.Path) c.Src.ModTime] },
        (osChtimes (env.absPathOf c.Path) c.Src.ModTime w.fs).2) := by
    unfold localModBody
    simp [h, World.log]
  refine ⟨⟨?_, ?_, ?_, ?_, ?_⟩, ?_⟩
  · rw [localMod, runHandler_trace, handlerBody, hm]; simp
  · rw [localMod, runHandler_trace, handlerBody, hm]
    simp [List.countP_append, List.countP_cons, isTransfer]
  · rw [localMod, runHandler_fs, handlerBody, hm]
  · rw [localMod, runHandler_err, handlerBody, hm]
  · intro q n hl hn ht hr
    rw [localMod, runHandler_fs, runHandler_err, handlerBody, hm]
    exact chtimes_effect _ _ w.fs w.fs q n (grows_refl _) hl hn ht hr
  · intro hd
    have ha : localAddBody env c w =
        ({ fs := (osChtimes (env.absPathOf c.Path) c.Src.ModTime
              (osMkdirAll env.now (filepathDir (env.absPathOf c.Path)) w.fs).1).1,
           wg := w.wg,
           trace := w.trace ++ [Event.mkdirAll (filepathDir (env.absPathOf c.Path)),
             Event.chtimes (env.absPathOf c.Path) c.Src.ModTime] },
          (osChtimes (env.absPathOf c.Path) c.Src.ModTime
              (osMkdirAll env.now (filepathDir (env.absPathOf c.Path)) w.fs).1).2) := by
      unfold localAddBody
      simp [h, hd, World.log, mkParents]
    refine ⟨?_, ?_, ?_, ?_, ?_⟩
    · rw [localAdd, runHandler_trace, handlerBody, ha]; simp
    · rw [localAdd, runHandler_trace, handlerBody, ha]
      simp [List.countP_append, List.countP_cons, isTransfer]
    · rw [localAdd, runHandler_fs, handlerBody, ha]
    · rw [localAdd, runHandler_err, handlerBody, ha]
    · intro q n hl hn ht hr
      rw [localAdd, runHandler_fs, runHandler_err, handlerBody, ha]
      exact chtimes_effect _ _ w.fs _ q n (osMkdirAll_grows _ _ _) hl hn ht hr

/-- Witness of C4 amended: a Modify and an Add of the existing file `/r/a`,
both without content reference. -/
theorem metadata_only_change_witness :
    ((exMetaChange "a" Operation.OpMod).Src.BlobAt = "" ∧
      lookupPath exWorld.fs (exEnv.absPathOf (exMetaChange "a" Operation.OpMod).Path) =
        Resolved.found ["r", "a"] ∧
      (localMod exEnv (exMetaChange "a" Operation.OpMod) exWorld).2 = none ∧
      (localMod exEnv (exMetaChange "a" Operation.OpMod) exWorld).1.fs ["r", "a"] =
        some { isDir := false, content := [9], modTime := 7 }) ∧
    ((localAdd exEnv (exMetaChange "a" Operation.OpAdd) exWorld).2 = none ∧
      (localAdd exEnv (exMetaChange "a" Operation.OpAdd) exWorld).1.fs ["r", "a"] =
        some { isDir := false, content := [9], modTime := 7 }) :=
  ⟨⟨rfl, by decide,
    (metadata_only_change exEnv (exMetaChange "a" Operation.OpMod) exWorld rfl).1.2.2.2.2
      ["r", "a"] { isDir := false, content := [9], modTime := 3 }
      (by decide) (by decide) (by decide) (by decide)⟩,
   ((metadata_only_change exEnv (exMetaChange "a" Operation.OpAdd) exWorld rfl).2 rfl).2.2.2.2
      ["r", "a"] { isDir := false, content := [9], modTime := 3 }
      (by decide) (by decide) (by decide) (by decide)⟩

/-! ## Path strings of clean absolute paths -/

theorem isName_ne_empty (c : String) (h : isName c) : c ≠ "" := by
  intro e
  rw [e] at h
  exact h.1 rfl

theorem rawSplitAux_run (cs rest cur : List Char) (h : '/' ∉ cs) :
    rawSplitAux (cs ++ rest) cur = rawSplitAux rest (cur ++ cs) := by
  induction cs generalizing cur with
  | nil => simp
  | cons c t ih =>
    have hc : c ≠ '/' := fun hc => h (by simp [hc])
    have ht : '/' ∉ t := fun ht => h (by simp [ht])
    simp only [List.cons_append, rawSplitAux, hc, if_false]
    have := ih (cur ++ [c]) ht
    simp only [List.append_assoc, List.singleton_append] at this
    exact this

theorem rawSplitAux_flatMap (names : List String) (cur : List Char)
    (h : ∀ c ∈ names, isName c) :
    rawSplitAux (names.flatMap (fun c => '/' :: c.data)) cur = String.mk cur :: names := by
  induction names generalizing cur with
  | nil => rfl
  | cons c t ih =>
    have hc := h c (by simp)
    have ht := ih c.data (fun x hx => h x (by simp [hx]))
    rw [List.flatMap_cons]
    simp only [List.cons_append, rawSplitAux, if_true]
    have h1 := rawSplitAux_run c.data (t.flatMap (fun c => '/' :: c.data)) [] hc.2.1
    rw [List.nil_append, ht] at h1
    exact congrArg (List.cons (String.mk cur)) h1

theorem pathString_ne_empty (names : List String) : pathString names ≠ "" := by
  unfold pathString
  split_ifs with h
  · decide
  · cases names with
    | nil => exact absurd rfl h
    | cons c t =>
      intro e
      have := congrArg String.data e
      simp [List.flatMap_cons] at this

theorem rawSplit_pathString (names : List String) (h : ∀ c ∈ names, isName c)
    (hne : names ≠ []) : rawSplit (pathString names) = "" :: names := by
  unfold rawSplit pathString
  rw [if_neg hne]
  exact rawSplitAux_flatMap names [] h

theorem pieces_pathString (names : List String) (h : ∀ c ∈ names, isName c) :
    pieces (pathString names) = names := by
  by_cases hne : names = []
  · subst hne; rfl
  · unfold pieces
    rw [rawSplit_pathString names h hne]
    rw [List.filter_cons_of_neg (by simp)]
    rw [List.filter_eq_self]
    intro c hc
    simpa using isName_ne_empty c (h c hc)

theorem rooted_pathString (names : List String) : rooted (pathString names) = true := by
  unfold rooted pathString
  split_ifs with h
  · rfl
  · cases names with
    | nil => exact absurd rfl h
    | cons c t => simp [List.flatMap_cons]

theorem cleanStack_names (out names : List String) (h : ∀ c ∈ names, isName c) :
    cleanStack true out names = out ++ names := by
  induction names generalizing out with
  | nil => simp [cleanStack]
  | cons c t ih =>
    have hc := h c (by simp)
    have h1 : ¬ (c = "" ∨ c = ".") := by
      intro e
      rcases e with e | e
      · exact isName_ne_empty c hc e
      · exact hc.2.2.1 e
    simp only [cleanStack, h1, hc.2.2.2, if_false]
    rw [ih _ (fun x hx => h x (by simp [hx]))]
    simp

/-- `filepath.Dir` of the path string of a clean absolute path is the path
string of its parent. -/
theorem filepathDir_pathString (names : List String) (h : ∀ c ∈ names, isName c)
    (hne : names ≠ []) : filepathDir (pathString names) = pathString names.dropLast := by
  unfold filepathDir
  rw [rooted_pathString, rawSplit_pathString names h hne]
  have hd : ("" :: names).dropLast = "" :: names.dropLast := by
    cases names with
    | nil => exact absurd rfl hne
    | cons c t => rfl
  rw [hd]
  have h2 : cleanStack true [] ("" :: names.dropLast) = names.dropLast := by
    simp only [cleanStack, true_or, if_true]
    rw [cleanStack_names _ _ (fun c hc => h c (List.mem_of_mem_dropLast hc))]
    simp
  rw [h2]
  rfl

/-! ## `os.MkdirAll` and `os.Mkdir` on clean paths -/

theorem walkDirs_names (fs : FS) (names : List String) (cur : Path)
    (hn : ∀ c ∈ names, isName c)
    (hd : ∀ r, r <+: names → r ≠ [] → isDirAt fs (cur ++ r) = true) :
    walkDirs fs cur names = Resolved.found (cur ++ names) := by
  induction names generalizing cur with
  | nil => simp [walkDirs]
  | cons c t ih =>
    have hc := hn c (by simp)
    have h1 : isDirAt fs (cur ++ [c]) = true :=
      hd [c] (by simp [List.prefix_cons_inj, List.nil_prefix]) (by simp)
    simp only [walkDirs, hc.2.2.1, hc.2.2.2, h1, if_true, if_false]
    rw [ih (cur ++ [c]) (fun x hx => hn x (by simp [hx]))]
    · simp
    · intro r hr hne
      have := hd (c :: r) ((List.prefix_cons_inj c).mpr hr) (by simp)
      simpa using this

theorem walkDirs_names_found (fs : FS) (names : List String) (cur d : Path)
    (hn : ∀ c ∈ names, isName c) (h : walkDirs fs cur names = Resolved.found d) :
    d = cur ++ names ∧ ∀ r, r <+: names → r ≠ [] → isDirAt fs (cur ++ r) = true := by
  induction names generalizing cur with
  | nil =>
    simp only [walkDirs, Resolved.found.injEq] at h
    refine ⟨by simp [h], ?_⟩
    intro r hr hne
    exact absurd (List.prefix_nil.mp hr) hne
  | cons c t ih =>
    have hc := hn c (by simp)
    simp only [walkDirs, hc.2.2.1, hc.2.2.2, if_false] at h
    by_cases h1 : isDirAt fs (cur ++ [c]) = true
    · simp only [h1, if_true] at h
      obtain ⟨e1, e2⟩ := ih (cur ++ [c]) (fun x hx => hn x (by simp [hx])) h
      refine ⟨by simp [e1], ?_⟩
      intro r hr hne
      cases r with
      | nil => exact absurd rfl hne
      | cons x r' =>
        obtain ⟨hx, hr'⟩ := List.cons_prefix_cons.mp hr
        subst hx
        by_cases hr0 : r' = []
        · subst hr0; exact h1
        · have := e2 r' hr' hr0
          simpa using this
    · by_cases h2 : existsAt fs (cur ++ [c]) = true
      · simp [h1, h2] at h
      · simp [h1, h2] at h

theorem prefix_concat_cases (r init : List String) (x : String) (h : r <+: init ++ [x]) :
    r <+: init ∨ r = init ++ [x] := by
  rcases List.prefix_concat_iff.mp h with h1 | h1
  · right; exact h1
  · left; exact h1

theorem concat_not_initial (init : List String) (x : String) : ¬ (init ++ [x]) <+: init := by
  intro h
  have := h.length_le
  simp at this

theorem mkdirPieces_names (now : Int) (fs : FS) (init : List String) (x : String)
    (hx : isName x) (hi : ∀ c ∈ init, isName c)
    (hd : ∀ r, r <+: init → isDirAt fs r = true) :
    mkdirPieces now (init ++ [x]) fs =
      if existsAt fs (init ++ [x]) = true then (fs, some Err.EEXIST)
      else ((touch now fs init).set (init ++ [x])
        (some { isDir := true, content := [], modTime := now }), none) := by
  unfold mkdirPieces
  have hw : walkDirs fs [] init = Resolved.found init := by
    have := walkDirs_names fs init [] hi (fun r hr _ => by simpa using hd r hr)
    simpa using this
  have h1 : ¬ (x = "." ∨ x = "..") := by
    intro e
    rcases e with e | e
    · exact hx.2.2.1 e
    · exact hx.2.2.2 e
  simp only [List.getLast?_concat, List.dropLast_concat, hw, h1, if_false]

theorem lookupPieces_names (fs : FS) (init : List String) (x : String)
    (hx : isName x) (hi : ∀ c ∈ init, isName c)
    (hd : ∀ r, r <+: init → isDirAt fs r = true)
    (hdir : isDirAt fs (init ++ [x]) = true) :
    lookupPieces fs (init ++ [x]) false = Resolved.found (init ++ [x]) := by
  unfold lookupPieces
  have hw : walkDirs fs [] init = Resolved.found init := by
    have := walkDirs_names fs init [] hi (fun r hr _ => by simpa using hd r hr)
    simpa using this
  simp only [List.getLast?_concat, List.dropLast_concat, hw, hx.2.2.1, hx.2.2.2, hdir,
    if_true, if_false]

theorem lookupPieces_names_found (fs : FS) (init : List String) (x : String) (q : Path)
    (hx : isName x) (hi : ∀ c ∈ init, isName c)
    (h : lookupPieces fs (init ++ [x]) false = Resolved.found q) :
    q = init ++ [x] ∧ existsAt fs q = true ∧ ∀ r, r <+: init → isDirAt fs r = true := by
  unfold lookupPieces at h
  simp only [List.getLast?_concat, List.dropLast_concat] at h
  rcases hw : walkDirs fs [] init with dir | e
  · obtain ⟨e1, e2⟩ := walkDirs_names_found fs init [] dir hi hw
    simp only [List.nil_append] at e1 e2
    subst e1
    have hpre : ∀ r, r <+: dir → isDirAt fs r = true := by
      intro r hr
      by_cases h0 : r = []
      · subst h0; rfl
      · exact e2 r hr h0
    simp only [hw, hx.2.2.1, hx.2.2.2, if_false] at h
    by_cases h3 : isDirAt fs (dir ++ [x]) = true
    · simp only [h3, if_true, Resolved.found.injEq] at h
      subst h
      refine ⟨rfl, ?_, hpre⟩
      unfold isDirAt at h3
      unfold existsAt
      cases hf : fs (dir ++ [x]) <;> simp_all
    · by_cases h4 : existsAt fs (dir ++ [x]) = true
      · simp only [h3, h4, if_true, if_false, Bool.false_eq_true, Resolved.found.injEq] at h
        subst h
        exact ⟨rfl, h4, hpre⟩
      · simp [h3, h4] at h
  · simp [hw] at h

/-- On a clean path none of whose prefixes is a regular file, `os.MkdirAll`
succeeds, leaves a directory at every prefix and touches nothing else. -/
theorem mkdirAllRev_names (now : Int) (fs : FS) (l : List String) :
    (∀ c ∈ l, isName c) →
    (∀ r, r <+: l → existsAt fs r = true → isDirAt fs r = true) →
    (mkdirAllRev now l.reverse fs).2 = none ∧
    (∀ r, r <+: l → isDirAt (mkdirAllRev now l.reverse fs).1 r = true) ∧
    (∀ q, ¬ q <+: l → (mkdirAllRev now l.reverse fs).1 q = fs q) := by
  induction l using List.reverseRecOn with
  | nil =>
    intro _ _
    refine ⟨rfl, ?_, fun _ _ => rfl⟩
    intro r hr
    rw [List.prefix_nil.mp hr]
    rfl
  | append_singleton init x ih =>
    intro hn hfile
    have hx : isName x := hn x (by simp)
    have hi : ∀ c ∈ init, isName c := fun c hc => hn c (by simp [hc])
    obtain ⟨i1, i2, i3⟩ := ih hi
      (fun r hr => hfile r (hr.trans (List.prefix_append init [x])))
    have hrev : (init ++ [x]).reverse = x :: init.reverse := by simp
    have hback : (x :: init.reverse).reverse = init ++ [x] := by simp
    rw [hrev]
    unfold mkdirAllRev
    rw [hback]
    rcases hl : lookupPieces fs (init ++ [x]) false with q | e
    · obtain ⟨e1, e2, e3⟩ := lookupPieces_names_found fs init x q hx hi hl
      subst e1
      have hdir := hfile _ (List.prefix_refl _) e2
      dsimp only
      rw [if_pos hdir]
      refine ⟨rfl, ?_, fun _ _ => rfl⟩
      intro r hr
      rcases prefix_concat_cases r init x hr with h1 | h1
      · exact e3 r h1
      · rw [h1]; exact hdir
    · simp only
      rcases hrec : mkdirAllRev now init.reverse fs with ⟨fs1, err1⟩
      rw [hrec] at i1 i2 i3
      simp only at i1 i2 i3
      subst i1
      simp only
      have hsame : fs1 (init ++ [x]) = fs (init ++ [x]) := i3 _ (concat_not_initial init x)
      rw [mkdirPieces_names now fs1 init x hx hi i2]
      by_cases hex : existsAt fs1 (init ++ [x]) = true
      · have hex0 : existsAt fs (init ++ [x]) = true := by
          unfold existsAt at hex ⊢
          rw [← hsame]; exact hex
        have hdir0 := hfile _ (List.prefix_refl _) hex0
        have hdir : isDirAt fs1 (init ++ [x]) = true := by
          unfold isDirAt at hdir0 ⊢
          rw [hsame]; exact hdir0
        rw [if_pos hex]
        dsimp only
        rw [lookupPieces_names fs1 init x hx hi i2 hdir]
        dsimp only
        rw [if_pos hdir]
        refine ⟨rfl, ?_, ?_⟩
        · intro r hr
          rcases prefix_concat_cases r init x hr with h1 | h1
          · exact i2 r h1
          · rw [h1]; exact hdir
        · intro q hq
          exact i3 q (fun h => hq (h.trans (List.prefix_append init [x])))
      · rw [if_neg hex]
        dsimp only
        refine ⟨rfl, ?_, ?_⟩
        · intro r hr
          rcases prefix_concat_cases r init x hr with h1 | h1
          · have hne : r ≠ init ++ [x] := by
              intro e
              rw [e] at h1
              exact concat_not_initial init x h1
            unfold isDirAt
            simp only [FS.set, hne, if_false]
            have := i2 r h1
            rw [← touch_isDirAt now fs1 init r] at this
            unfold isDirAt at this
            exact this
          · rw [h1]
            simp [isDirAt, FS.set]
        · intro q hq
          have h1 : q ≠ init ++ [x] := fun e => hq (e ▸ List.prefix_refl _)
          have h2 : q ≠ init := fun e => hq (e ▸ List.prefix_append init [x])
          simp only [FS.set, h1, if_false]
          rw [touch_apply, if_neg h2]
          exact i3 q (fun h => hq (h.trans (List.prefix_append init [x])))

/-! ## `localAdd` of a directory -/

theorem walkDirs_dirs (fs : FS) (cur : Path) (ps : List String) (d : Path)
    (hc : ∀ r, r <+: cur → isDirAt fs r = true)
    (h : walkDirs fs cur ps = Resolved.found d) : ∀ r, r <+: d → isDirAt fs r = true := by
  induction ps generalizing cur with
  | nil =>
    simp only [walkDirs, Resolved.found.injEq] at h
    subst h
    exact hc
  | cons c rest ih =>
    simp only [walkDirs] at h
    by_cases h1 : c = "."
    · simp only [h1, if_true] at h
      exact ih cur hc h
    · by_cases h2 : c = ".."
      · simp only [h1, h2, if_true, if_false] at h
        exact ih _ (fun r hr => hc r (hr.trans (List.dropLast_prefix cur))) h
      · by_cases h3 : isDirAt fs (cur ++ [c]) = true
        · simp only [h1, h2, h3, if_true, if_false] at h
          refine ih _ ?_ h
          intro r hr
          rcases prefix_concat_cases r cur c hr with e | e
          · exact hc r e
          · rw [e]; exact h3
        · by_cases h4 : existsAt fs (cur ++ [c]) = true
          · simp [h1, h2, h3, h4] at h
          · simp [h1, h2, h3, h4] at h

theorem keepsFiles_refl (fs : FS) : KeepsFiles fs fs := fun _ _ _ h _ => h

theorem keepsFiles_trans {a b c : FS} (h1 : KeepsFiles a b) (h2 : KeepsFiles b c) :
    KeepsFiles a c :=
  fun q n h0 hq hf => h1 q n h0 (h2 q n h0 hq hf) hf

theorem keepsFiles_touch (t : Int) (fs : FS) (d : Path) (hd : isDirAt fs d = true) :
    KeepsFiles fs (touch t fs d) := by
  intro q n h0 hq hf
  rw [touch_apply] at hq
  by_cases e : q = d
  · subst e
    rw [if_pos rfl] at hq
    cases hfs : fs q with
    | none => rw [hfs] at hq; simp at hq
    | some n0 =>
      rw [hfs] at hq
      simp only [Option.map_some', Option.some.injEq] at hq
      unfold isDirAt at hd
      rw [hfs] at hd
      rw [← hq] at hf
      simp only at hf
      simp [h0, hf] at hd
  · rw [if_neg e] at hq
    exact hq

theorem keepsFiles_set_dir (fs : FS) (q : Path) (n : Node) (hn : n.isDir = true) :
    KeepsFiles fs (fs.set q (some n)) := by
  intro r m _ hr hf
  unfold FS.set at hr
  by_cases e : r = q
  · rw [if_pos e] at hr
    simp only [Option.some.injEq] at hr
    rw [← hr, hn] at hf
    exact Bool.noConfusion hf
  · rw [if_neg e] at hr
    exact hr

theorem mkdirPieces_keeps (now : Int) (ps : List String) (fs : FS) :
    KeepsFiles fs (mkdirPieces now ps fs).1 := by
  unfold mkdirPieces
  rcases hg : ps.getLast? with _ | last
  · exact keepsFiles_refl fs
  · dsimp only
    rcases hw : walkDirs fs [] ps.dropLast with dir | e
    · dsimp only
      have hdir : isDirAt fs dir = true :=
        walkDirs_dirs fs [] _ dir
          (fun r hr => by rw [List.prefix_nil.mp hr]; rfl) hw dir (List.prefix_refl _)
      by_cases h1 : last = "." ∨ last = ".."
      · rw [if_pos h1]; exact keepsFiles_refl fs
      · rw [if_neg h1]
        by_cases h2 : existsAt fs (dir ++ [last]) = true
        · rw [if_pos h2]; exact keepsFiles_refl fs
        · rw [if_neg h2]
          exact keepsFiles_trans (keepsFiles_touch now fs dir hdir)
            (keepsFiles_set_dir _ _ _ rfl)
    · exact keepsFiles_refl fs

theorem mkdirAllRev_keeps (now : Int) (l : List String) (fs : FS) :
    KeepsFiles fs (mkdirAllRev now l fs).1 := by
  induction l generalizing fs with
  | nil => exact keepsFiles_refl fs
  | cons c rest ih =>
    unfold mkdirAllRev
    rcases hl : lookupPieces fs (c :: rest).reverse false with q | e
    · dsimp only
      split_ifs
      · exact keepsFiles_refl fs
      · exact keepsFiles_refl fs
    · dsimp only
      have h1 := ih fs
      rcases hr : mkdirAllRev now rest fs with ⟨fs1, _ | e1⟩
      · rw [hr] at h1
        dsimp only
        have h2 := mkdirPieces_keeps now (c :: rest).reverse fs1
        rcases hm : mkdirPieces now (c :: rest).reverse fs1 with ⟨fs2, _ | e2⟩
        · rw [hm] at h2
          exact keepsFiles_trans h1 h2
        · rw [hm] at h2
          dsimp only
          rcases lookupPieces fs2 (c :: rest).reverse false with q2 | e3
          · dsimp only
            split_ifs
            · exact keepsFiles_trans h1 h2
            · exact keepsFiles_trans h1 h2
          · exact keepsFiles_trans h1 h2
      · rw [hr] at h1
        exact h1

theorem osMkdirAll_keeps (now : Int) (p : String) (fs : FS) :
    KeepsFiles fs (osMkdirAll now p fs).1 := by
  unfold osMkdirAll
  split_ifs
  · exact keepsFiles_refl fs
  · exact mkdirAllRev_keeps now _ fs

theorem osMkdir_keeps (now : Int) (p : String) (fs : FS) :
    KeepsFiles fs (osMkdir now p fs).1 ∧ Grows fs (osMkdir now p fs).1 := by
  unfold osMkdir
  split_ifs
  · exact ⟨keepsFiles_refl fs, grows_refl fs⟩
  · exact ⟨mkdirPieces_keeps now _ fs, mkdirPieces_grows now _ fs⟩

theorem osMkdir_ok (now : Int) (p : String) (fs : FS) (h : (osMkdir now p fs).2 = none) :
    (osMkdir now p fs).1 (components p) =
      some { isDir := true, content := [], modTime := now } := by
  unfold osMkdir mkdirPieces at h ⊢
  by_cases h0 : p = ""
  · simp [h0] at h
  · simp only [h0, if_false] at h ⊢
    rcases hl : (pieces p).getLast? with _ | last
    · simp [hl] at h
    · simp only [hl] at h ⊢
      rcases hw : walkDirs fs [] (pieces p).dropLast with dir | e
      · simp only [hw] at h ⊢
        by_cases h1 : last = "." ∨ last = ".."
        · simp [h1] at h
        · have hc := components_of_walk fs p last dir hl hw (fun x => h1 (Or.inl x))
            (fun x => h1 (Or.inr x))
          by_cases h2 : existsAt fs (dir ++ [last]) = true
          · simp [h1, h2] at h
          · simp [h1, h2, hc, FS.set]
      · simp [hw] at h

/-- Claim C5: for an Add with `Src.IsDir` true, whatever `Src.BlobAt` is,
`localAdd` calls `os.MkdirAll` on `filepath.Dir` of the destination and then
`os.Mkdir` on the destination, returns the result of that `os.Mkdir`, and makes
no call of a content transfer; every entry there was is still there with its
kind and content, and no regular file is new or changed; when it returns no
error the destination is a directory.  When the destination is a clean absolute
path that does not exist and none of whose parents is a regular file, the
parents that were missing are created, the destination is created, and the
handler returns no error. -/
theorem localAdd_directory (env : Env) (c : Change) (w : World)
    (h : c.Src.IsDir = true) :
    (localAdd env c w).1.trace =
      w.trace ++ [Event.mkdirAll (filepathDir (env.absPathOf c.Path)),
        Event.mkdir (env.absPathOf c.Path), Event.wgDone, Event.taskDone] ∧
    (localAdd env c w).1.trace.countP isTransfer = w.trace.countP isTransfer ∧
    (localAdd env c w).2 =
      (osMkdir env.now (env.absPathOf c.Path)
        (osMkdirAll env.now (filepathDir (env.absPathOf c.Path)) w.fs).1).2 ∧
    (localAdd env c w).1.fs =
      (osMkdir env.now (env.absPathOf c.Path)
        (osMkdirAll env.now (filepathDir (env.absPathOf c.Path)) w.fs).1).1 ∧
    ((localAdd env c w).2 = none →
      (localAdd env c w).1.fs (components (env.absPathOf c.Path)) =
        some { isDir := true, content := [], modTime := env.now }) ∧
    KeepsFiles w.fs (localAdd env c w).1.fs ∧
    Grows w.fs (localAdd env c w).1.fs ∧
    (∀ names, env.absPathOf c.Path = pathString names → names ≠ [] →
      (∀ x ∈ names, isName x) →
      (∀ r, r <+: names.dropLast → existsAt w.fs r = true → isDirAt w.fs r = true) →
      existsAt w.fs names = false →
      (localAdd env c w).2 = none ∧
      ∀ r, r <+: names → isDirAt (localAdd env c w).1.fs r = true) := by
  have ha : localAddBody env c w =
      ({ fs := (osMkdir env.now (env.absPathOf c.Path)
            (osMkdirAll env.now (filepathDir (env.absPathOf c.Path)) w.fs).1).1,
         wg := w.wg,
         trace := w.trace ++ [Event.mkdirAll (filepathDir (env.absPathOf c.Path)),
           Event.mkdir (env.absPathOf c.Path)] },
        (osMkdir env.now (env.absPathOf c.Path)
            (osMkdirAll env.now (filepathDir (env.absPathOf c.Path)) w.fs).1).2) := by
    unfold localAddBody
    simp [h, World.log, mkParents]
  have hfs : (localAdd env c w).1.fs = (osMkdir env.now (env.absPathOf c.Path)
      (osMkdirAll env.now (filepathDir (env.absPathOf c.Path)) w.fs).1).1 := by
    rw [localAdd, runHandler_fs, handlerBody, ha]
  have herr : (localAdd env c w).2 = (osMkdir env.now (env.absPathOf c.Path)
      (osMkdirAll env.now (filepathDir (env.absPathOf c.Path)) w.fs).1).2 := by
    rw [localAdd, runHandler_err, handlerBody, ha]
  refine ⟨?_, ?_, herr, hfs, ?_, ?_, ?_, ?_⟩
  · rw [localAdd, runHandler_trace, handlerBody, ha]; simp
  · rw [localAdd, runHandler_trace, handlerBody, ha]
    simp [List.countP_append, List.countP_cons, isTransfer]
  · rw [herr, hfs]
    exact osMkdir_ok _ _ _
  · rw [hfs]
    exact keepsFiles_trans (osMkdirAll_keeps _ _ _) (osMkdir_keeps _ _ _).1
  · rw [hfs]
    exact grows_trans (osMkdirAll_grows _ _ _) (osMkdir_keeps _ _ _).2
  · intro names hp hne hn hfile habs
    rw [herr, hfs, hp, filepathDir_pathString names hn hne]
    have hnd : ∀ x ∈ names.dropLast, isName x := fun x hx => hn x (List.mem_of_mem_dropLast hx)
    have hsplit : names = names.dropLast ++ [names.getLast hne] :=
      (List.dropLast_append_getLast hne).symm
    have hlast : isName (names.getLast hne) := hn _ (List.getLast_mem hne)
    obtain ⟨m1, m2, m3⟩ := mkdirAllRev_names env.now w.fs names.dropLast hnd hfile
    have hall : osMkdirAll env.now (pathString names.dropLast) w.fs =
        mkdirAllRev env.now names.dropLast.reverse w.fs := by
      unfold osMkdirAll
      rw [if_neg (pathString_ne_empty _), pieces_pathString _ hnd]
    rw [hall]
    generalize (mkdirAllRev env.now names.dropLast.reverse w.fs).1 = fs1 at m2 m3
    have hnp : ¬ names <+: names.dropLast := by
      intro hpre
      have h1 := hpre.length_le
      rw [List.length_dropLast] at h1
      have : 0 < names.length := List.length_pos.mpr hne
      omega
    have hex : ¬ existsAt fs1 names = true := by
      unfold existsAt at habs ⊢
      rw [m3 names hnp, habs]
      simp
    have hmk : osMkdir env.now (pathString names) fs1 =
        ((touch env.now fs1 names.dropLast).set names
          (some { isDir := true, content := [], modTime := env.now }), none) := by
      unfold osMkdir
      rw [if_neg (pathString_ne_empty _), pieces_pathString _ hn]
      have := mkdirPieces_names env.now fs1 names.dropLast (names.getLast hne) hlast hnd m2
      rw [← hsplit] at this
      rw [this, if_neg hex]
    rw [hmk]
    refine ⟨rfl, ?_⟩
    intro r hr
    by_cases e : r = names
    · subst e
      simp [isDirAt, FS.set]
    · have hr2 : r <+: names.dropLast := by
        rw [hsplit] at hr
        rcases prefix_concat_cases r _ _ hr with h1 | h1
        · exact h1
        · rw [← hsplit] at h1
          exact absurd h1 e
      have := m2 r hr2
      rw [← touch_isDirAt env.now fs1 names.dropLast r] at this
      unfold isDirAt at this ⊢
      simp only [FS.set, e, if_false]
      exact this

/-- Witness of C5: the Add of the directory `/r/p/q/d` when neither `/r/p` nor
`/r/p/q` exists. -/
theorem localAdd_directory_witness :
    exDeepDirAdd.Src.IsDir = true ∧
    exWorld.fs ["r", "p"] = none ∧ exWorld.fs ["r", "p", "q"] = none ∧
    (localAdd exEnv exDeepDirAdd exWorld).2 = none ∧
    (∀ r, r <+: ["r", "p", "q", "d"] →
      isDirAt (localAdd exEnv exDeepDirAdd exWorld).1.fs r = true) :=
  ⟨rfl, by decide, by decide,
   localAdd_directory exEnv exDeepDirAdd exWorld rfl |>.2.2.2.2.2.2.2 ["r", "p", "q", "d"]
      (by decide) (by decide) (by decide)
      (fun r hr => (by decide : ∀ r ∈ (["r", "p", "q", "d"].dropLast).inits,
        existsAt exWorld.fs r = true → isDirAt exWorld.fs r = true) r
          ((List.mem_inits _ _).mpr hr))
      (by decide)⟩

/-- Claim C6: for a change with a non-empty `Src.BlobAt`, when `download`
returns an error, `localMod` (and `localAdd` for a non-directory) returns that
same error and makes no `os.Chtimes` call; `os.Chtimes` is called, after the
transfer, when `download` returned no error. -/
theorem transfer_error_aborts (env : Env) (c : Change) (w : World)
    (h : c.Src.BlobAt ≠ "") :
    (∀ e, (download env c w).2 = some e →
      (localMod env c w).2 = some e ∧
      (localMod env c w).1.trace =
        (download env c w).1.trace ++ [Event.wgDone, Event.taskDone] ∧
      (localMod env c w).1.trace.countP isChtimes = w.trace.countP isChtimes) ∧
    ((download env c w).2 = none →
      (localMod env c w).1.trace =
        (download env c w).1.trace ++ [Event.chtimes (env.absPathOf c.Path) c.Src.ModTime,
          Event.wgDone, Event.taskDone]) ∧
    (c.Src.IsDir = false →
      (∀ e, (download env c (mkParents env c w)).2 = some e →
        (localAdd env c w).2 = some e ∧
        (localAdd env c w).1.trace =
          (download env c (mkParents env c w)).1.trace ++ [Event.wgDone, Event.taskDone] ∧
        (localAdd env c w).1.trace.countP isChtimes = w.trace.countP isChtimes) ∧
      ((download env c (mkParents env c w)).2 = none →
        (localAdd env c w).1.trace =
          (download env c (mkParents env c w)).1.trace ++
            [Event.chtimes (env.absPathOf c.Path) c.Src.ModTime,
              Event.wgDone, Event.taskDone])) := by
  refine ⟨?_, ?_, ?_⟩
  · intro e he
    have hm : localModBody env c w = ((download env c w).1, some e) := by
      unfold localModBody
      simp only [h, ne_eq, not_false_eq_true, if_true]
      rcases hd : download env c w with ⟨w1, _ | e1⟩
      · rw [hd] at he; simp at he
      · rw [hd] at he; simp at he; simp [he]
    refine ⟨?_, ?_, ?_⟩
    · rw [localMod, runHandler_err, handlerBody, hm]
    · rw [localMod, runHandler_trace, handlerBody, hm]
    · rw [localMod, runHandler_trace, handlerBody, hm]
      simp [List.countP_append, List.countP_cons, isChtimes, download_trace_chtimes]
  · intro hok
    rw [localMod, runHandler_trace, handlerBody]
    unfold localModBody
    simp only [h, ne_eq, not_false_eq_true, if_true]
    rcases hd : download env c w with ⟨w1, _ | e1⟩
    · simp [World.log]
    · rw [hd] at hok; simp at hok
  · intro hdir
    refine ⟨?_, ?_⟩
    · intro e he
      have ha : localAddBody env c w = ((download env c (mkParents env c w)).1, some e) := by
        unfold localAddBody
        simp only [h, hdir, ne_eq, not_false_eq_true, if_true, Bool.false_eq_true, if_false]
        rcases hd : download env c (mkParents env c w) with ⟨w2, _ | e1⟩
        · rw [hd] at he; simp at he
        · rw [hd] at he; simp at he; simp [he]
      refine ⟨?_, ?_, ?_⟩
      · rw [localAdd, runHandler_err, handlerBody, ha]
      · rw [localAdd, runHandler_trace, handlerBody, ha]
      · rw [localAdd, runHandler_trace, handlerBody, ha]
        simp [List.countP_append, List.countP_cons, isChtimes, download_trace_chtimes,
          mkParents]
    · intro hok
      rw [localAdd, runHandler_trace, handlerBody]
      unfold localAddBody
      simp only [h, hdir, ne_eq, not_false_eq_true, if_true, Bool.false_eq_true, if_false]
      rcases hd : download env c (mkParents env c w) with ⟨w2, _ | e1⟩
      · simp [World.log]
      · rw [hd] at hok; simp at hok

/-- Witness of C6: the remote request for the content of `/r/a` fails. -/
theorem transfer_error_aborts_witness :
    ((exBadChange "a" Operation.OpMod).Src.BlobAt ≠ "" ∧
      (download exEnv (exBadChange "a" Operation.OpMod) exWorld).2 =
        some (Err.remote "unavailable") ∧
      (localMod exEnv (exBadChange "a" Operation.OpMod) exWorld).2 =
        some (Err.remote "unavailable")) ∧
    (localAdd exEnv (exBadChange "n" Operation.OpAdd) exWorld).2 =
      some (Err.remote "unavailable") :=
  ⟨⟨by decide, by decide,
    ((transfer_error_aborts exEnv (exBadChange "a" Operation.OpMod) exWorld (by decide)).1
      (Err.remote "unavailable") (by decide)).1⟩,
   (((transfer_error_aborts exEnv (exBadChange "n" Operation.OpAdd) exWorld (by decide)).2.2
      rfl).1 (Err.remote "unavailable") (by decide)).1⟩

/-! ## Executions of `playPullChangeList` -/

/-- Induction over the steps of an execution of `playPullChangeList`. -/
theorem play_induction (env : Env) (cl : List Change) (w : World) (P : Exec → Prop)
    (h0 : P (enter cl w)) (hstep : ∀ s c, P s → P (step env s c)) (sched : List Choice) :
    P (playPullChangeList env sched cl w) := by
  unfold playPullChangeList
  induction sched using List.reverseRecOn with
  | nil => exact h0
  | append_singleton l c ih =>
    rw [List.foldl_append]
    exact hstep _ c ih

theorem mainStep_returned (s : Exec) (e : Option Err) (h : s.status = Status.returned e) :
    mainStep s = s := by
  unfold mainStep
  rw [h]

theorem mainStep_waiting (s : Exec) (h : s.status = Status.waiting) :
    mainStep s = if s.w.wg = 0 then { s with status := Status.loopHead } else s := by
  unfold mainStep
  rw [h]

theorem mainStep_finish (s : Exec) (h : s.status = Status.loopHead) (hcl : s.cl = []) :
    mainStep s =
      { s with cl := [], w := s.w.log Event.taskFinish, status := Status.returned s.err } := by
  unfold mainStep
  rw [h]
  simp [hcl, maxNumOfConcPullTasks]

theorem mainStep_window (s : Exec) (h : s.status = Status.loopHead) (hcl : s.cl ≠ []) :
    mainStep s =
      { s with
        cl := s.cl.drop maxNumOfConcPullTasks,
        w := (launchAll (s.cl.take maxNumOfConcPullTasks)
          ({ s.w.log (Event.wgAdd (s.cl.take maxNumOfConcPullTasks).length) with
              wg := ((s.cl.take maxNumOfConcPullTasks).length : Int) }, s.started)).1,
        started := (launchAll (s.cl.take maxNumOfConcPullTasks)
          ({ s.w.log (Event.wgAdd (s.cl.take maxNumOfConcPullTasks).length) with
              wg := ((s.cl.take maxNumOfConcPullTasks).length : Int) }, s.started)).2,
        windows := s.windows ++ [s.cl.take maxNumOfConcPullTasks],
        status := Status.waiting } := by
  unfold mainStep
  rw [h]
  have hpos : 0 < s.cl.length := List.length_pos.mpr hcl
  by_cases hlen : s.cl.length > maxNumOfConcPullTasks
  · have h4 : (List.take maxNumOfConcPullTasks s.cl).length ≠ 0 := by
      rw [List.length_take]; unfold maxNumOfConcPullTasks at hlen ⊢; omega
    simp only [hlen, if_true, h4, if_false]
  · have ht : s.cl.take maxNumOfConcPullTasks = s.cl := List.take_of_length_le (by omega)
    have hd : s.cl.drop maxNumOfConcPullTasks = [] := List.drop_eq_nil_of_le (by omega)
    have h4 : s.cl.length ≠ 0 := by omega
    simp only [hlen, if_false, ht, hd, h4]

theorem Frame.refl (w : World) : Frame w w := ⟨rfl, [], by simp, by simp⟩

theorem Frame.trans {a b c : World} (h1 : Frame a b) (h2 : Frame b c) : Frame a c := by
  obtain ⟨hw1, e1, ht1, ho1⟩ := h1
  obtain ⟨hw2, e2, ht2, ho2⟩ := h2
  refine ⟨hw2.trans hw1, e1 ++ e2, ?_, ?_⟩
  · rw [ht2, ht1, List.append_assoc]
  · intro e he
    rcases List.mem_append.mp he with h | h
    · exact ho1 e h
    · exact ho2 e h

theorem download_frame (env : Env) (c : Change) (w : World) :
    Frame w (download env c w).1 := by
  rw [download_cases]
  rcases osCreate env.now (env.absPathOf c.Path) w.fs with ⟨fs1, _ | e⟩
  · rcases env.remDownload c.Src.Id with e | blob
    · exact ⟨rfl, _, rfl, by simp [isOsCall]⟩
    · exact ⟨rfl, _, rfl, by simp [isOsCall]⟩
  · exact ⟨rfl, _, rfl, by simp [isOsCall]⟩

theorem chtimes_frame (p : String) (t : Int) (w : World) :
    Frame w { (w.log (Event.chtimes p t)) with
      fs := (osChtimes p t (w.log (Event.chtimes p t)).fs).1 } :=
  ⟨rfl, [Event.chtimes p t], rfl, by simp [isOsCall]⟩

theorem localModBody_frame (env : Env) (c : Change) (w : World) :
    Frame w (localModBody env c w).1 := by
  unfold localModBody
  simp only
  split_ifs with hb
  · have hd := download_frame env c w
    rcases hdl : download env c w with ⟨w1, _ | e⟩
    · rw [hdl] at hd
      exact hd.trans (chtimes_frame _ _ w1)
    · rw [hdl] at hd
      exact hd
  · exact chtimes_frame _ _ w

theorem mkParents_frame (env : Env) (c : Change) (w : World) :
    Frame w (mkParents env c w) :=
  ⟨rfl, _, rfl, by simp [isOsCall]⟩

theorem localAddBody_frame (env : Env) (c : Change) (w : World) :
    Frame w (localAddBody env c w).1 := by
  unfold localAddBody
  simp only
  split_ifs with hdir hb
  · exact (mkParents_frame env c w).trans ⟨rfl, [Event.mkdir _], rfl, by simp [isOsCall]⟩
  · have hd := download_frame env c (mkParents env c w)
    rcases hdl : download env c (mkParents env c w) with ⟨w1, _ | e⟩
    · rw [hdl] at hd
      exact (mkParents_frame env c w).trans (hd.trans (chtimes_frame _ _ w1))
    · rw [hdl] at hd
      exact (mkParents_frame env c w).trans hd
  · exact (mkParents_frame env c w).trans (chtimes_frame _ _ _)

theorem localDeleteBody_frame (env : Env) (c : Change) (w : World) :
    Frame w (localDeleteBody env c w).1 :=
  ⟨rfl, [Event.removeAll c.Dest.BlobAt], rfl, by simp [isOsCall]⟩

theorem handlerBody_frame (env : Env) (h : Handler) (c : Change) (w : World) :
    Frame w (handlerBody env h c w).1 := by
  cases h
  · exact localModBody_frame env c w
  · exact localAddBody_frame env c w
  · exact localDeleteBody_frame env c w

theorem launchAll_eq (l : List Change) (w : World) (st : List (Handler × Change)) :
    launchAll l (w, st) =
      ({ w with trace := w.trace ++ (l.filterMap launchOf).map (fun p => Event.go p.1 p.2) },
        st ++ l.filterMap launchOf) := by
  induction l generalizing w st with
  | nil => simp [launchAll]
  | cons c rest ih =>
    unfold launchAll
    cases hd : dispatch c with
    | none => simp [ih, launchOf, hd]
    | some h => simp [ih, launchOf, hd, World.log]

theorem filterMap_launchOf_length (l : List Change) :
    (l.filterMap launchOf).length + unhandled l = l.length := by
  induction l with
  | nil => rfl
  | cons c rest ih =>
    unfold unhandled at ih ⊢
    cases hd : dispatch c with
    | none => simp [launchOf, hd, List.countP_cons]; omega
    | some h => simp [launchOf, hd, List.countP_cons]; omega

theorem bodyStep_windows (env : Env) (i : Nat) (s : Exec) :
    (bodyStep env i s).windows = s.windows ∧ (bodyStep env i s).cl = s.cl ∧
    (bodyStep env i s).err = s.err ∧ (bodyStep env i s).status = s.status := by
  unfold bodyStep
  split <;> simp

theorem doneStep_windows (s : Exec) :
    (doneStep s).windows = s.windows ∧ (doneStep s).cl = s.cl ∧
    (doneStep s).err = s.err ∧ (doneStep s).status = s.status ∧
    (doneStep s).started = s.started ∧ (doneStep s).w.wg = s.w.wg := by
  unfold doneStep
  split <;> simp [taskDone, World.log]

theorem invWin_enter (cl : List Change) (w : World) : InvWin cl (enter cl w) := by
  simp [InvWin, enter, maxNumOfConcPullTasks]

theorem invWin_step (env : Env) (cl0 : List Change) (s : Exec) (c : Choice)
    (h : InvWin cl0 s) : InvWin cl0 (step env s c) := by
  obtain ⟨hw, hcl, hlt, herr, hret⟩ := h
  cases c with
  | body i =>
    obtain ⟨e1, e2, e3, e4⟩ := bodyStep_windows env i s
    simp only [step, InvWin, e1, e2, e3, e4]
    exact ⟨hw, hcl, hlt, herr, hret⟩
  | done =>
    obtain ⟨e1, e2, e3, e4, _, _⟩ := doneStep_windows s
    simp only [step, InvWin, e1, e2, e3, e4]
    exact ⟨hw, hcl, hlt, herr, hret⟩
  | main =>
    simp only [step]
    cases hs : s.status with
    | returned e =>
      rw [mainStep_returned s e hs]
      exact ⟨hw, hcl, hlt, herr, hret⟩
    | waiting =>
      rw [mainStep_waiting s hs]
      split_ifs
      · exact ⟨hw, hcl, hlt, herr, by simp⟩
      · exact ⟨hw, hcl, hlt, herr, hret⟩
    | loopHead =>
      by_cases hnil : s.cl = []
      · rw [mainStep_finish s hs hnil]
        refine ⟨hw, ?_, hlt, herr, ?_⟩
        · simp only; rw [← hcl, hnil]
        · simp [herr]
      · rw [mainStep_window s hs hnil]
        refine ⟨?_, ?_, ?_, herr, by simp⟩
        · simp only [List.length_append, List.length_singleton, List.range_succ,
            List.map_append, List.map_singleton]
          rw [← hw]
          simp only [chunk, ← hcl]
        · simp only [List.length_append, List.length_singleton]
          rw [hcl, List.drop_drop]
          congr 1
        · simp only [List.length_append, List.length_singleton]
          have : 0 < s.cl.length := List.length_pos.mpr hnil
          rw [hcl, List.length_drop] at this
          unfold maxNumOfConcPullTasks at *
          omega

theorem bodyStep_cases (env : Env) (i : Nat) (s : Exec) :
    (s.started = [] ∧ bodyStep env i s = s) ∨
    ∃ h c j, j < s.started.length ∧
      bodyStep env i s =
        { s with w := wgDone (handlerBody env h c s.w).1,
                 started := s.started.eraseIdx j,
                 deferred := s.deferred + 1 } := by
  by_cases hnil : s.started = []
  · left
    refine ⟨hnil, ?_⟩
    unfold bodyStep
    simp [hnil]
  · right
    have hpos : 0 < s.started.length := List.length_pos.mpr hnil
    have hlt : i % s.started.length < s.started.length := Nat.mod_lt _ hpos
    obtain ⟨⟨h, c⟩, hget⟩ : ∃ p, s.started.get? (i % s.started.length) = some p :=
      ⟨_, List.get?_eq_get hlt⟩
    refine ⟨h, c, i % s.started.length, hlt, ?_⟩
    unfold bodyStep
    rw [hget]

theorem wgDone_body_wg (env : Env) (h : Handler) (c : Change) (w : World) :
    (wgDone (handlerBody env h c w).1).wg = w.wg - 1 := by
  have hf := (handlerBody_frame env h c w).1
  simp [wgDone, World.log, hf]

theorem invBar_enter (cl : List Change) (w : World) : InvBar (enter cl w) := by
  simp [InvBar, enter]

theorem invBar_step (env : Env) (s : Exec) (c : Choice) (h : InvBar s) :
    InvBar (step env s c) := by
  obtain ⟨hwait, hidle, hprev⟩ := h
  cases c with
  | body i =>
    simp only [step]
    rcases bodyStep_cases env i s with ⟨_, he⟩ | ⟨hh, cc, j, hj, he⟩
    · rw [he]; exact ⟨hwait, hidle, hprev⟩
    · rw [he]
      refine ⟨?_, ?_, hprev⟩
      · intro hs
        obtain ⟨last, hl, hwg⟩ := hwait hs
        refine ⟨last, hl, ?_⟩
        simp only [wgDone_body_wg, List.length_eraseIdx, hj, if_true]
        rw [hwg]
        have : 1 ≤ s.started.length := by omega
        push_cast [this]
        omega
      · intro hs
        have := (hidle hs).1
        rw [this] at hj
        simp at hj
  | done =>
    obtain ⟨e1, _, _, e4, e5, e6⟩ := doneStep_windows s
    simp only [step, InvBar, e1, e4, e5, e6]
    exact ⟨hwait, hidle, hprev⟩
  | main =>
    simp only [step]
    cases hs : s.status with
    | returned e =>
      rw [mainStep_returned s e hs]
      exact ⟨hwait, hidle, hprev⟩
    | waiting =>
      rw [mainStep_waiting s hs]
      split_ifs with h0
      · obtain ⟨last, hl, hwg⟩ := hwait hs
        rw [h0] at hwg
        have hst : s.started.length = 0 := by omega
        have hun : unhandled last = 0 := by omega
        refine ⟨by simp, ?_, hprev⟩
        intro _
        refine ⟨List.length_eq_zero.mp hst, ?_⟩
        intro win hwin
        have hsplit : s.windows = s.windows.dropLast ++ [last] := by
          have := List.dropLast_append_getLast? last hl
          exact this.symm
        rw [hsplit] at hwin
        rcases List.mem_append.mp hwin with hm | hm
        · exact hprev win hm
        · simp at hm; rw [hm]; exact hun
      · exact ⟨hwait, hidle, hprev⟩
    | loopHead =>
      have hi := hidle (by rw [hs]; simp)
      by_cases hnil : s.cl = []
      · rw [mainStep_finish s hs hnil]
        refine ⟨by simp, ?_, hprev⟩
        intro _
        exact hi
      · rw [mainStep_window s hs hnil]
        refine ⟨?_, by simp, ?_⟩
        · intro _
          refine ⟨s.cl.take maxNumOfConcPullTasks, by simp, ?_⟩
          simp only [launchAll_eq, hi.1, List.nil_append]
          have := filterMap_launchOf_length (s.cl.take maxNumOfConcPullTasks)
          omega
        · simp only [List.dropLast_concat]
          exact hi.2

theorem launches_append (a b : List Event) : launches (a ++ b) = launches a ++ launches b := by
  induction a with
  | nil => rfl
  | cons e t ih => cases e <;> simp [launches, ih]

theorem launches_os (evs : List Event) (h : ∀ e ∈ evs, isOsCall e = true) :
    launches evs = [] := by
  induction evs with
  | nil => rfl
  | cons e t ih =>
    have he := h e (by simp)
    have ht := ih (fun x hx => h x (by simp [hx]))
    cases e <;> simp_all [launches, isOsCall]

theorem launches_go (ps : List (Handler × Change)) :
    launches (ps.map (fun p => Event.go p.1 p.2)) = ps := by
  induction ps with
  | nil => rfl
  | cons p t ih => simp [launches, ih]

theorem count_os (evs : List Event) (h : ∀ e ∈ evs, isOsCall e = true) (x : Event)
    (hx : isOsCall x = false) : evs.count x = 0 := by
  rw [List.count_eq_zero]
  intro hmem
  rw [h x hmem] at hx
  exact Bool.noConfusion hx

theorem not_mem_os (evs : List Event) (h : ∀ e ∈ evs, isOsCall e = true) (x : Event)
    (hx : isOsCall x = false) : x ∉ evs := by
  intro hmem
  rw [h x hmem] at hx
  exact Bool.noConfusion hx

theorem count_go_map (ps : List (Handler × Change)) (x : Event)
    (hx : ∀ h c, x ≠ Event.go h c) :
    (ps.map (fun p => Event.go p.1 p.2)).count x = 0 := by
  rw [List.count_eq_zero]
  intro hmem
  obtain ⟨p, _, hp⟩ := List.mem_map.mp hmem
  exact hx p.1 p.2 hp.symm

theorem invLog_enter (cl : List Change) (w : World) : InvLog w cl (enter cl w) := by
  refine ⟨[], ?_, ?_, ?_, ?_, ?_, ?_, ?_⟩ <;> simp [enter, World.log, launches]

theorem invLog_step (env : Env) (w0 : World) (cl0 : List Change) (s : Exec) (c : Choice)
    (hB : InvBar s) (h : InvLog w0 cl0 s) : InvLog w0 cl0 (step env s c) := by
  obtain ⟨t, htr, hla, hdone, hwgd, hstart, hnofin, hfin⟩ := h
  cases c with
  | body i =>
    simp only [step]
    rcases bodyStep_cases env i s with ⟨_, he⟩ | ⟨hh, cc, j, hj, he⟩
    · rw [he]; exact ⟨t, htr, hla, hdone, hwgd, hstart, hnofin, hfin⟩
    · have hwaiting : s.status = Status.waiting := by
        by_contra hne
        have := (hB.2.1 hne).1
        rw [this] at hj
        simp at hj
      obtain ⟨_, evs, hevs, hos⟩ := handlerBody_frame env hh cc s.w
      rw [he]
      have hl : launches (t ++ (evs ++ [Event.wgDone])) = launches t := by
        rw [launches_append, launches_append, launches_os evs hos]
        simp [launches]
      refine ⟨t ++ (evs ++ [Event.wgDone]), ?_, ?_, ?_, ?_, ?_, ?_, ?_⟩
      · simp [wgDone, World.log, hevs, htr]
      · rw [hl]; exact hla
      · rw [hl]
        simp only [List.count_append, count_os evs hos Event.taskDone rfl,
          List.length_eraseIdx, hj, if_true]
        simp
        omega
      · rw [hl]
        simp only [List.count_append, count_os evs hos Event.wgDone rfl,
          List.length_eraseIdx, hj, if_true]
        simp
        omega
      · intro n hn
        rcases List.mem_append.mp hn with hm | hm
        · exact hstart n hm
        · rcases List.mem_append.mp hm with hm | hm
          · exact not_mem_os evs hos (Event.taskStart n) rfl hm
          · simp at hm
      · intro _ hn
        rcases List.mem_append.mp hn with hm | hm
        · exact hnofin (by rw [hwaiting]; simp) hm
        · rcases List.mem_append.mp hm with hm | hm
          · exact not_mem_os evs hos Event.taskFinish rfl hm
          · simp at hm
      · intro e hs
        simp only at hs
        rw [hwaiting] at hs
        exact Status.noConfusion hs
  | done =>
    simp only [step]
    unfold doneStep
    split_ifs with hd
    · exact ⟨t, htr, hla, hdone, hwgd, hstart, hnofin, hfin⟩
    · have hl : launches (t ++ [Event.taskDone]) = launches t := by
        rw [launches_append]; simp [launches]
      refine ⟨t ++ [Event.taskDone], ?_, ?_, ?_, ?_, ?_, ?_, ?_⟩
      · simp [taskDone, World.log, htr]
      · rw [hl]; exact hla
      · rw [hl]
        simp only [List.count_append]
        simp
        omega
      · rw [hl]
        simp only [List.count_append]
        simp
        omega
      · intro n hn
        rcases List.mem_append.mp hn with hm | hm
        · exact hstart n hm
        · simp at hm
      · intro hs hn
        rcases List.mem_append.mp hn with hm | hm
        · exact hnofin hs hm
        · simp at hm
      · intro e hs
        obtain ⟨pre, d, hpre, hnot, hlp⟩ := hfin e hs
        refine ⟨pre, d + 1, ?_, hnot, ?_⟩
        · rw [hpre, List.replicate_succ']
          simp
        · rw [hl]; exact hlp
  | main =>
    simp only [step]
    cases hs : s.status with
    | returned e =>
      rw [mainStep_returned s e hs]
      exact ⟨t, htr, hla, hdone, hwgd, hstart, hnofin, hfin⟩
    | waiting =>
      rw [mainStep_waiting s hs]
      split_ifs with h0
      · refine ⟨t, htr, hla, hdone, hwgd, hstart, ?_, by simp⟩
        intro _
        exact hnofin (by rw [hs]; simp)
      · exact ⟨t, htr, hla, hdone, hwgd, hstart, hnofin, hfin⟩
    | loopHead =>
      have hnf : Event.taskFinish ∉ t := hnofin (by rw [hs]; simp)
      by_cases hnil : s.cl = []
      · rw [mainStep_finish s hs hnil]
        have hl : launches (t ++ [Event.taskFinish]) = launches t := by
          rw [launches_append]; simp [launches]
        refine ⟨t ++ [Event.taskFinish], ?_, ?_, ?_, ?_, ?_, ?_, ?_⟩
        · simp [World.log, htr]
        · rw [hl]; exact hla
        · rw [hl]
          simp only [List.count_append]
          simp
          omega
        · rw [hl]
          simp only [List.count_append]
          simp
          omega
        · intro n hn
          rcases List.mem_append.mp hn with hm | hm
          · exact hstart n hm
          · simp at hm
        · intro hne
          exact absurd rfl (hne s.err)
        · intro e _
          exact ⟨t, 0, by simp, hnf, hl.symm⟩
      · rw [mainStep_window s hs hnil]
        simp only [launchAll_eq]
        have hl : launches (t ++ (Event.wgAdd (s.cl.take maxNumOfConcPullTasks).length ::
            ((s.cl.take maxNumOfConcPullTasks).filterMap launchOf).map
              (fun p => Event.go p.1 p.2))) =
            launches t ++ (s.cl.take maxNumOfConcPullTasks).filterMap launchOf := by
          rw [launches_append]
          simp [launches, launches_go]
        refine ⟨t ++ (Event.wgAdd (s.cl.take maxNumOfConcPullTasks).length ::
            ((s.cl.take maxNumOfConcPullTasks).filterMap launchOf).map
              (fun p => Event.go p.1 p.2)), ?_, ?_, ?_, ?_, ?_, ?_, ?_⟩
        · simp [World.log, htr]
        · rw [hl, hla]
          simp
        · rw [hl]
          have hz := count_go_map ((s.cl.take maxNumOfConcPullTasks).filterMap launchOf)
            Event.taskDone (by intro h c; simp)
          simp only [List.count_append, List.length_append, List.count_cons, hz]
          simp
          omega
        · rw [hl]
          have hz := count_go_map ((s.cl.take maxNumOfConcPullTasks).filterMap launchOf)
            Event.wgDone (by intro h c; simp)
          simp only [List.count_append, List.length_append, List.count_cons, hz]
          simp
          omega
        · intro n hn
          rcases List.mem_append.mp hn with hm | hm
          · exact hstart n hm
          · simp at hm
        · intro _ hn
          rcases List.mem_append.mp hn with hm | hm
          · exact hnf hm
          · simp at hm
        · intro e he
          simp at he

/-- The three invariants hold in every state an execution reaches. -/
theorem play_inv (env : Env) (sched : List Choice) (cl : List Change) (w : World) :
    InvWin cl (playPullChangeList env sched cl w) ∧
    InvBar (playPullChangeList env sched cl w) ∧
    InvLog w cl (playPullChangeList env sched cl w) := by
  refine play_induction env cl w (fun s => InvWin cl s ∧ InvBar s ∧ InvLog w cl s)
    ⟨invWin_enter cl w, invBar_enter cl w, invLog_enter cl w⟩ ?_ sched
  intro s c ⟨h1, h2, h3⟩
  exact ⟨invWin_step env cl s c h1, invBar_step env s c h2, invLog_step env w cl s c h2 h3⟩

theorem foldl_fix (env : Env) (s : Exec) (sched : List Choice)
    (h : ∀ c, step env s c = s) : sched.foldl (step env) s = s := by
  induction sched with
  | nil => rfl
  | cons c rest ih => rw [List.foldl_cons, h c, ih]

/-- After the return, with every goroutine finished, no step changes the state. -/
theorem quiescent_fix (env : Env) (s : Exec) (e : Option Err)
    (hs : s.status = Status.returned e) (hst : s.started = []) (hd : s.deferred = 0)
    (c : Choice) : step env s c = s := by
  cases c with
  | main => exact mainStep_returned s e hs
  | body i => simp [step, bodyStep, hst]
  | done => simp [step, doneStep, hd]

theorem drain (env : Env) (k : Nat) (s : Exec) (hk : s.started.length ≤ k) :
    ((List.replicate k (Choice.body 0)).foldl (step env) s).started = [] ∧
    ((List.replicate k (Choice.body 0)).foldl (step env) s).w.wg =
      s.w.wg - (s.started.length : Int) ∧
    ((List.replicate k (Choice.body 0)).foldl (step env) s).deferred =
      s.deferred + s.started.length ∧
    ((List.replicate k (Choice.body 0)).foldl (step env) s).status = s.status ∧
    ((List.replicate k (Choice.body 0)).foldl (step env) s).cl = s.cl ∧
    ((List.replicate k (Choice.body 0)).foldl (step env) s).err = s.err := by
  induction k generalizing s with
  | zero =>
    have : s.started = [] := List.length_eq_zero.mp (by omega)
    simp [this]
  | succ k ih =>
    rw [List.replicate_succ, List.foldl_cons]
    cases hst : s.started with
    | nil =>
      have hfix : step env s (Choice.body 0) = s := by simp [step, bodyStep, hst]
      rw [hfix]
      have := ih s (by rw [hst]; simp)
      rw [hst] at this
      exact this
    | cons p ps =>
      obtain ⟨h, c⟩ := p
      have hstep : step env s (Choice.body 0) =
          { s with w := wgDone (handlerBody env h c s.w).1, started := ps,
                   deferred := s.deferred + 1 } := by
        simp [step, bodyStep, hst]
      rw [hstep]
      rw [hst] at hk
      simp only [List.length_cons] at hk
      obtain ⟨a1, a2, a3, a4, a5, a6⟩ := ih
        { s with w := wgDone (handlerBody env h c s.w).1, started := ps,
                 deferred := s.deferred + 1 } (by simp only; omega)
      refine ⟨a1, ?_, ?_, a4, a5, a6⟩
      · rw [a2]
        simp only [wgDone_body_wg, List.length_cons]
        push_cast
        omega
      · rw [a3]
        simp only [List.length_cons]
        omega

theorem flush (env : Env) (k : Nat) (s : Exec) :
    ((List.replicate k Choice.done).foldl (step env) s).started = s.started ∧
    ((List.replicate k Choice.done).foldl (step env) s).w.wg = s.w.wg ∧
    ((List.replicate k Choice.done).foldl (step env) s).deferred = s.deferred - k ∧
    ((List.replicate k Choice.done).foldl (step env) s).status = s.status ∧
    ((List.replicate k Choice.done).foldl (step env) s).cl = s.cl ∧
    ((List.replicate k Choice.done).foldl (step env) s).err = s.err := by
  induction k generalizing s with
  | zero => simp
  | succ k ih =>
    rw [List.replicate_succ, List.foldl_cons]
    obtain ⟨a1, a2, a3, a4, a5, a6⟩ := ih (step env s Choice.done)
    obtain ⟨_, e2, e3, e4, e5, e6⟩ := doneStep_windows s
    have hd : (doneStep s).deferred = s.deferred - 1 := by
      unfold doneStep
      split_ifs with h0
      · omega
      · rfl
    simp only [step] at a1 a2 a3 a4 a5 a6 ⊢
    refine ⟨a1.trans e5, a2.trans e6, ?_, a4.trans e4, a5.trans e2, a6.trans e3⟩
    rw [a3, hd]
    omega

theorem unhandled_of_allHandled (l : List Change) (h : allHandled l = true) :
    unhandled l = 0 := by
  unfold unhandled
  unfold allHandled at h
  rw [List.countP_eq_zero]
  intro c hc
  have := List.all_eq_true.mp h c hc
  cases hd : dispatch c with
  | none => rw [hd] at this; simp at this
  | some x => simp

theorem allHandled_take (l : List Change) (k : Nat) (h : allHandled l = true) :
    allHandled (l.take k) = true := by
  unfold allHandled at h ⊢
  rw [List.all_eq_true] at h ⊢
  exact fun c hc => h c (List.mem_of_mem_take hc)

theorem allHandled_drop (l : List Change) (k : Nat) (h : allHandled l = true) :
    allHandled (l.drop k) = true := by
  unfold allHandled at h ⊢
  rw [List.all_eq_true] at h ⊢
  exact fun c hc => h c (List.mem_of_mem_drop hc)

theorem round_split : round =
    [Choice.main] ++ (List.replicate 4 (Choice.body 0) ++
      (List.replicate 4 Choice.done ++ [Choice.main])) := rfl

/-- A round from the loop head with changes left takes one window, runs it to
the end and comes back to the loop head. -/
theorem round_progress (env : Env) (s : Exec) (hs : s.status = Status.loopHead)
    (hst : s.started = []) (hd : s.deferred = 0) (hcl : s.cl ≠ [])
    (hall : allHandled s.cl = true) :
    (round.foldl (step env) s).status = Status.loopHead ∧
    (round.foldl (step env) s).started = [] ∧
    (round.foldl (step env) s).deferred = 0 ∧
    (round.foldl (step env) s).cl = s.cl.drop maxNumOfConcPullTasks ∧
    (round.foldl (step env) s).err = s.err := by
  rw [round_split, List.foldl_append, List.foldl_append, List.foldl_append]
  simp only [List.foldl_cons, List.foldl_nil]
  have h1 : step env s Choice.main = mainStep s := rfl
  rw [h1, mainStep_window s hs hcl]
  simp only [launchAll_eq, hst, List.nil_append]
  have hlen := filterMap_launchOf_length (s.cl.take maxNumOfConcPullTasks)
  rw [unhandled_of_allHandled _ (allHandled_take _ _ hall)] at hlen
  have hle : (s.cl.take maxNumOfConcPullTasks).length ≤ 4 := by
    rw [List.length_take]; unfold maxNumOfConcPullTasks; omega
  generalize hs1 : ({ s with
      cl := s.cl.drop maxNumOfConcPullTasks,
      w := _, started := (s.cl.take maxNumOfConcPullTasks).filterMap launchOf,
      windows := s.windows ++ [s.cl.take maxNumOfConcPullTasks],
      status := Status.waiting } : Exec) = s1
  have p1 : s1.started = (s.cl.take maxNumOfConcPullTasks).filterMap launchOf := by
    rw [← hs1]
  have p2 : s1.w.wg = ((s.cl.take maxNumOfConcPullTasks).length : Int) := by rw [← hs1]
  have p3 : s1.deferred = 0 := by rw [← hs1]; exact hd
  have p4 : s1.status = Status.waiting := by rw [← hs1]
  have p5 : s1.cl = s.cl.drop maxNumOfConcPullTasks := by rw [← hs1]
  have p6 : s1.err = s.err := by rw [← hs1]
  obtain ⟨d1, d2, d3, d4, d5, d6⟩ := drain env 4 s1 (by rw [p1]; omega)
  obtain ⟨f1, f2, f3, f4, f5, f6⟩ :=
    flush env 4 ((List.replicate 4 (Choice.body 0)).foldl (step env) s1)
  generalize hs3 : (List.replicate 4 Choice.done).foldl (step env)
    ((List.replicate 4 (Choice.body 0)).foldl (step env) s1) = s3 at f1 f2 f3 f4 f5 f6
  have q1 : s3.status = Status.waiting := by rw [f4, d4, p4]
  have q2 : s3.w.wg = 0 := by rw [f2, d2, p2, p1]; omega
  have h2 : step env s3 Choice.main = { s3 with status := Status.loopHead } := by
    show mainStep s3 = _
    rw [mainStep_waiting s3 q1]
    simp [q2]
  rw [h2]
  refine ⟨rfl, ?_, ?_, ?_, ?_⟩
  · show s3.started = []
    rw [f1, d1]
  · show s3.deferred = 0
    rw [f3, d3, p3, p1]; omega
  · show s3.cl = _
    rw [f5, d5, p5]
  · show s3.err = _
    rw [f6, d6, p6]

theorem roundRobin_from (env : Env) (m : Nat) (s : Exec)
    (hs : s.status = Status.loopHead) (hst : s.started = []) (hd : s.deferred = 0)
    (hall : allHandled s.cl = true) (hm : s.cl.length < m) :
    ((roundRobin m).foldl (step env) s).status = Status.returned s.err ∧
    ((roundRobin m).foldl (step env) s).started = [] ∧
    ((roundRobin m).foldl (step env) s).deferred = 0 := by
  induction m generalizing s with
  | zero => omega
  | succ m ih =>
    by_cases hcl : s.cl = []
    · have h1 : step env s Choice.main =
          { s with cl := [], w := s.w.log Event.taskFinish,
                   status := Status.returned s.err } := mainStep_finish s hs hcl
      have hfix := foldl_fix env
        { s with cl := [], w := s.w.log Event.taskFinish, status := Status.returned s.err }
        ([Choice.body 0, Choice.body 0, Choice.body 0, Choice.body 0,
          Choice.done, Choice.done, Choice.done, Choice.done, Choice.main] ++ roundRobin m)
        (quiescent_fix env _ s.err rfl hst hd)
      have hsplit : roundRobin (m + 1) = Choice.main ::
          ([Choice.body 0, Choice.body 0, Choice.body 0, Choice.body 0,
            Choice.done, Choice.done, Choice.done, Choice.done, Choice.main] ++
              roundRobin m) := rfl
      rw [hsplit, List.foldl_cons, h1, hfix]
      exact ⟨rfl, hst, hd⟩
    · obtain ⟨r1, r2, r3, r4, r5⟩ := round_progress env s hs hst hd hcl hall
      have hsplit : roundRobin (m + 1) = round ++ roundRobin m := rfl
      rw [hsplit, List.foldl_append]
      have hlen : (round.foldl (step env) s).cl.length < m := by
        rw [r4, List.length_drop]
        have : 0 < s.cl.length := List.length_pos.mpr hcl
        unfold maxNumOfConcPullTasks
        omega
      have := ih (round.foldl (step env) s) r1 r2 r3
        (by rw [r4]; exact allHandled_drop _ _ hall) hlen
      rw [r5] at this
      exact this

/-- Under the round-robin schedule an execution on a list of handled changes
returns, with every goroutine finished. -/
theorem roundRobin_returns (env : Env) (cl : List Change) (w : World)
    (hall : allHandled cl = true) :
    (playPullChangeList env (roundRobin (cl.length + 1)) cl w).status =
      Status.returned none ∧
    (playPullChangeList env (roundRobin (cl.length + 1)) cl w).started = [] ∧
    (playPullChangeList env (roundRobin (cl.length + 1)) cl w).deferred = 0 :=
  roundRobin_from env (cl.length + 1) (enter cl w) rfl rfl rfl hall (Nat.lt_succ_self _)

set_option maxRecDepth 20000

theorem chunks_flatten (cl : List Change) (k : Nat) :
    ((List.range k).map (chunk cl)).flatten = cl.take (maxNumOfConcPullTasks * k) := by
  induction k with
  | zero => simp
  | succ k ih =>
    rw [List.range_succ, List.map_append, List.flatten_append, ih]
    simp only [List.map_singleton, List.flatten_cons, List.flatten_nil, List.append_nil, chunk]
    rw [Nat.mul_succ, List.take_add]

theorem chunk_length (cl : List Change) (i : Nat) :
    (chunk cl i).length = min maxNumOfConcPullTasks (cl.length - maxNumOfConcPullTasks * i) := by
  simp [chunk, List.length_take, List.length_drop]

theorem dropLast_map_range (f : Nat → List Change) (k : Nat) :
    ((List.range k).map f).dropLast = (List.range (k - 1)).map f := by
  cases k with
  | zero => rfl
  | succ k => rw [List.range_succ, List.map_append]; simp

/-- Claim C1: for a change list of length `n` of the data model, in which
every change has one of the operations `OpAdd`, `OpMod`, `OpDelete`, when
`playPullChangeList` returns it has taken exactly `⌈n/4⌉` windows, each
non-empty and of at most 4 changes, all but the last of exactly 4, whose
concatenation in the order they were run is the list; and it does return,
under the round-robin schedule. -/
theorem windows_of_run (env : Env) (sched : List Choice) (cl : List Change) (w : World)
    (hall : allHandled cl = true) :
    (∀ e, (playPullChangeList env sched cl w).status = Status.returned e →
      (playPullChangeList env sched cl w).windows.length =
        (cl.length + (maxNumOfConcPullTasks - 1)) / maxNumOfConcPullTasks ∧
      (playPullChangeList env sched cl w).windows.flatten = cl ∧
      (∀ win ∈ (playPullChangeList env sched cl w).windows,
        win ≠ [] ∧ win.length ≤ maxNumOfConcPullTasks) ∧
      (∀ win ∈ (playPullChangeList env sched cl w).windows.dropLast,
        win.length = maxNumOfConcPullTasks)) ∧
    (playPullChangeList env (roundRobin (cl.length + 1)) cl w).status =
      Status.returned none := by
  refine ⟨?_, (roundRobin_returns env cl w hall).1⟩
  intro e he
  obtain ⟨⟨hw, hcl, hlt, _, hret⟩, _, _⟩ := play_inv env sched cl w
  generalize playPullChangeList env sched cl w = s at *
  have hnil := (hret e he).2
  rw [hnil] at hcl
  have hle : cl.length ≤ maxNumOfConcPullTasks * s.windows.length :=
    List.drop_eq_nil_iff.mp hcl.symm
  refine ⟨?_, ?_, ?_, ?_⟩
  · unfold maxNumOfConcPullTasks at *
    omega
  · rw [hw, chunks_flatten]
    exact List.take_of_length_le hle
  · intro win hwin
    rw [hw] at hwin
    obtain ⟨i, hi, rfl⟩ := List.mem_map.mp hwin
    rw [List.mem_range] at hi
    have hl := chunk_length cl i
    refine ⟨?_, ?_⟩
    · intro h0
      rw [h0] at hl
      simp only [List.length_nil] at hl
      unfold maxNumOfConcPullTasks at *
      omega
    · rw [hl]; exact Nat.min_le_left _ _
  · intro win hwin
    rw [hw, dropLast_map_range] at hwin
    obtain ⟨i, hi, rfl⟩ := List.mem_map.mp hwin
    rw [List.mem_range] at hi
    rw [chunk_length]
    unfold maxNumOfConcPullTasks at *
    omega

/-- Witness of C1: five Adds give windows of sizes 4 and 1; the empty
list gives no window. -/
theorem windows_of_run_witness :
    (allHandled exFive = true ∧
      (playPullChangeList exEnv (roundRobin 6) exFive exWorld).windows.map List.length =
        [4, 1] ∧
      (playPullChangeList exEnv (roundRobin 6) exFive exWorld).windows.length =
        (exFive.length + (maxNumOfConcPullTasks - 1)) / maxNumOfConcPullTasks ∧
      (playPullChangeList exEnv (roundRobin 6) exFive exWorld).windows.flatten = exFive) ∧
    (playPullChangeList exEnv (roundRobin 1) [] exWorld).status = Status.returned none ∧
    (playPullChangeList exEnv (roundRobin 1) [] exWorld).windows = [] :=
  ⟨⟨by decide, by decide,
    ((windows_of_run exEnv (roundRobin 6) exFive exWorld (by decide)).1 none (by decide)).1,
    ((windows_of_run exEnv (roundRobin 6) exFive exWorld (by decide)).1 none (by decide)).2.1⟩,
   (windows_of_run exEnv [] [] exWorld (by decide)).2, by decide⟩

theorem dispatch_matches (c : Change) (h : Handler) (hd : dispatch c = some h) :
    matchesOp h c := by
  unfold dispatch at hd
  unfold matchesOp
  cases hop : c.op <;> rw [hop] at hd <;> simp at hd <;> subst hd <;> simp

theorem forall2_launchOf (l : List Change) (hall : allHandled l = true) :
    List.Forall₂ (fun p c => p.2 = c ∧ matchesOp p.1 c) (l.filterMap launchOf) l := by
  induction l with
  | nil => exact List.Forall₂.nil
  | cons c rest ih =>
    have hc : (dispatch c).isSome = true := by
      unfold allHandled at hall
      exact (List.all_eq_true.mp hall) c (by simp)
    have hrest : allHandled rest = true := by
      unfold allHandled at hall ⊢
      rw [List.all_eq_true] at hall ⊢
      exact fun x hx => hall x (by simp [hx])
    obtain ⟨h, hd⟩ := Option.isSome_iff_exists.mp hc
    have hl : launchOf c = some (h, c) := by simp [launchOf, hd]
    rw [List.filterMap_cons_some hl]
    exact List.Forall₂.cons ⟨rfl, dispatch_matches c h hd⟩ (ih hrest)

/-- The log of a run is `g.taskStart(len(cl))` followed by the log the
invariant speaks of. -/
theorem runLog_of_inv (w : World) (cl : List Change) (s : Exec) (t : List Event)
    (h : s.w.trace = w.trace ++ Event.taskStart cl.length :: t) :
    runLog w s = Event.taskStart cl.length :: t := by
  unfold runLog
  rw [h, List.drop_left]

/-- When the function has returned, the windows taken make up the list. -/
theorem windows_flatten_of_returned (env : Env) (sched : List Choice) (cl : List Change)
    (w : World) (e : Option Err)
    (he : (playPullChangeList env sched cl w).status = Status.returned e) :
    (playPullChangeList env sched cl w).windows.flatten = cl := by
  obtain ⟨⟨hw, hcl, _, _, hret⟩, _, _⟩ := play_inv env sched cl w
  generalize playPullChangeList env sched cl w = s at *
  rw [(hret e he).2] at hcl
  rw [hw, chunks_flatten]
  exact List.take_of_length_le (List.drop_eq_nil_iff.mp hcl.symm)

/-- Claim C2: for a change list of the data model, in which every change has
one of the operations `OpAdd`, `OpMod`, `OpDelete`, when `playPullChangeList`
returns, the `go` statements of the run are, in order, one per change of the
list, each on that change and with the handler of its operation (`localAdd`
for `OpAdd`, `localMod` for `OpMod`, `localDelete` for `OpDelete`), and each
goroutine has run its body; and the function does return, under the
round-robin schedule. -/
theorem one_handler_per_change (env : Env) (sched : List Choice) (cl : List Change)
    (w : World) (hall : allHandled cl = true) :
    (∀ e, (playPullChangeList env sched cl w).status = Status.returned e →
      List.Forall₂ (fun p c => p.2 = c ∧ matchesOp p.1 c)
        (launches (runLog w (playPullChangeList env sched cl w))) cl ∧
      (playPullChangeList env sched cl w).started = [] ∧
      (runLog w (playPullChangeList env sched cl w)).count Event.wgDone = cl.length) ∧
    (playPullChangeList env (roundRobin (cl.length + 1)) cl w).status =
      Status.returned none := by
  refine ⟨?_, (roundRobin_returns env cl w hall).1⟩
  intro e he
  have hwin := (windows_flatten_of_returned env sched cl w e he)
  obtain ⟨_, hB, t, htr, hla, _, hwgd, _, _, _⟩ := play_inv env sched cl w
  generalize playPullChangeList env sched cl w = s at *
  have hst : s.started = [] := (hB.2.1 (by rw [he]; simp)).1
  rw [runLog_of_inv w cl s t htr]
  have hl : launches (Event.taskStart cl.length :: t) = cl.filterMap launchOf := by
    simp only [launches]
    rw [hla, hwin]
  refine ⟨?_, hst, ?_⟩
  · rw [hl]
    exact forall2_launchOf cl hall
  · have hlen := filterMap_launchOf_length cl
    rw [unhandled_of_allHandled cl hall] at hlen
    rw [hst, hla, hwin] at hwgd
    simp only [List.length_nil] at hwgd
    rw [List.count_cons]
    simp
    omega

/-- Witness of C2: an Add, a Modify and a Delete. -/
theorem one_handler_per_change_witness :
    allHandled exMixed = true ∧
    launches (runLog exWorld (playPullChangeList exEnv (roundRobin 4) exMixed exWorld)) =
      [(Handler.localAdd, exChange "a" Operation.OpAdd),
       (Handler.localMod, exChange "b" Operation.OpMod),
       (Handler.localDelete, exChange "c" Operation.OpDelete)] ∧
    (runLog exWorld (playPullChangeList exEnv (roundRobin 4) exMixed exWorld)).count
      Event.wgDone = exMixed.length :=
  ⟨by decide, by decide,
   ((one_handler_per_change exEnv (roundRobin 4) exMixed exWorld (by decide)).1 none
      (by decide)).2.2⟩

/-- Claim C3: `playPullChangeList` never returns an error, whatever the
handlers return and whatever the schedule: a run that has returned has returned
nil; and on a list whose changes all have one of the three operations it does
return, under the round-robin schedule. -/
theorem returns_nil (env : Env) (sched : List Choice) (cl : List Change) (w : World) :
    (∀ e, (playPullChangeList env sched cl w).status = Status.returned e → e = none) ∧
    (allHandled cl = true →
      (playPullChangeList env (roundRobin (cl.length + 1)) cl w).status =
        Status.returned none) :=
  ⟨fun e he => ((play_inv env sched cl w).1.2.2.2.2 e he).1,
   fun hall => (roundRobin_returns env cl w hall).1⟩

/-- Witness of C3: the transfer of the first change fails and its handler
returns the error; the run returns nil. -/
theorem returns_nil_witness :
    (localMod exEnv (exBadChange "a" Operation.OpMod) exWorld).2 =
      some (Err.remote "unavailable") ∧
    allHandled exFailing = true ∧
    (playPullChangeList exEnv (roundRobin (exFailing.length + 1)) exFailing exWorld).status =
      Status.returned none :=
  ⟨by decide, by decide, (returns_nil exEnv [] exFailing exWorld).2 (by decide)⟩

theorem allHandled_of_windows (ws : List (List Change))
    (h : ∀ win ∈ ws, unhandled win = 0) : allHandled ws.flatten = true := by
  unfold allHandled
  rw [List.all_eq_true]
  intro c hc
  obtain ⟨win, hwin, hcw⟩ := List.mem_flatten.mp hc
  have h0 := h win hwin
  unfold unhandled at h0
  rw [List.countP_eq_zero] at h0
  have := h0 c hcw
  cases hd : dispatch c with
  | none => rw [hd] at this; simp at this
  | some x => rfl

/-- A barrier whose window holds a change without goroutine stays closed. -/
theorem stuck_step (env : Env) (s : Exec) (last : List Change) (c : Choice)
    (hB : InvBar s) (hs : s.status = Status.waiting)
    (hl : s.windows.getLast? = some last) (hu : unhandled last ≠ 0) :
    (step env s c).status = Status.waiting ∧ (step env s c).windows = s.windows := by
  cases c with
  | body i =>
    obtain ⟨e1, _, _, e4⟩ := bodyStep_windows env i s
    exact ⟨e4.trans hs, e1⟩
  | done =>
    obtain ⟨e1, _, _, e4, _, _⟩ := doneStep_windows s
    exact ⟨e4.trans hs, e1⟩
  | main =>
    obtain ⟨last2, hl2, hwg⟩ := hB.1 hs
    rw [hl] at hl2
    cases hl2
    have hne : s.w.wg ≠ 0 := by omega
    simp only [step]
    rw [mainStep_waiting s hs]
    simp [hne, hs]

theorem stuck_run (env : Env) (more : List Choice) (s : Exec) (last : List Change)
    (hB : InvBar s) (hs : s.status = Status.waiting)
    (hl : s.windows.getLast? = some last) (hu : unhandled last ≠ 0) :
    (more.foldl (step env) s).status = Status.waiting := by
  induction more generalizing s with
  | nil => exact hs
  | cons c rest ih =>
    rw [List.foldl_cons]
    obtain ⟨h1, h2⟩ := stuck_step env s last c hB hs hl hu
    exact ih (step env s c) (invBar_step env s c hB) h1 (by rw [h2]; exact hl)

theorem runHandler_wg (env : Env) (h : Handler) (c : Change) (w : World) :
    (runHandler env h c w).1.wg = w.wg - 1 := by
  have := wgDone_body_wg env h c w
  simpa [runHandler, taskDone, World.log] using this

theorem runHandler_count (env : Env) (h : Handler) (c : Change) (w : World)
    (x : Event) (hx : isOsCall x = false) :
    (runHandler env h c w).1.trace.count x =
      w.trace.count x + [Event.wgDone, Event.taskDone].count x := by
  obtain ⟨_, evs, hevs, hos⟩ := handlerBody_frame env h c w
  rw [runHandler_trace, hevs, List.count_append, List.count_append, count_os evs hos x hx]
  simp

/-- Claim C10: at each window the counter of the barrier is set to the
length of the window, and a handler decrements it exactly once on every exit
path; so while the loop waits the counter is the number of started goroutines
whose body has not run plus the number of changes of the window whose operation
is none of `OpAdd`, `OpMod`, `OpDelete`.  The barrier is released when the
started goroutines have run if no change of the window is of the latter kind,
and is never released, under any continuation, if one is; hence a window is
left, and the function returns, only when every change so far has one of the
three operations, and on a list with another operation it never returns. -/
theorem barrier_counter (env : Env) (sched : List Choice) (cl : List Change) (w : World) :
    (∀ s0 : Exec, s0.status = Status.loopHead → s0.cl ≠ [] →
      (mainStep s0).status = Status.waiting ∧
      (mainStep s0).windows = s0.windows ++ [s0.cl.take maxNumOfConcPullTasks] ∧
      (mainStep s0).w.wg = ((s0.cl.take maxNumOfConcPullTasks).length : Int)) ∧
    (∀ h c w1, (runHandler env h c w1).1.wg = w1.wg - 1 ∧
      (runHandler env h c w1).1.trace.count Event.wgDone =
        w1.trace.count Event.wgDone + 1) ∧
    (∀ last, (playPullChangeList env sched cl w).status = Status.waiting →
      (playPullChangeList env sched cl w).windows.getLast? = some last →
      (playPullChangeList env sched cl w).w.wg =
        ((playPullChangeList env sched cl w).started.length : Int) + (unhandled last : Int) ∧
      (unhandled last = 0 →
        (mainStep ((List.replicate (playPullChangeList env sched cl w).started.length
          (Choice.body 0)).foldl (step env) (playPullChangeList env sched cl w))).status =
          Status.loopHead) ∧
      (unhandled last ≠ 0 → ∀ more,
        (playPullChangeList env (sched ++ more) cl w).status = Status.waiting)) ∧
    ((playPullChangeList env sched cl w).status ≠ Status.waiting →
      ∀ win ∈ (playPullChangeList env sched cl w).windows, unhandled win = 0) ∧
    (∀ win ∈ (playPullChangeList env sched cl w).windows.dropLast, unhandled win = 0) ∧
    (allHandled cl = false → ∀ e,
      (playPullChangeList env sched cl w).status ≠ Status.returned e) ∧
    (allHandled cl = true →
      (playPullChangeList env (roundRobin (cl.length + 1)) cl w).status =
        Status.returned none) := by
  refine ⟨?_, ?_, ?_, ?_, ?_, ?_, ?_⟩
  · intro s0 hs hcl
    rw [mainStep_window s0 hs hcl]
    simp [launchAll_eq]
  · intro h c w1
    refine ⟨runHandler_wg env h c w1, ?_⟩
    rw [runHandler_count env h c w1 Event.wgDone rfl]
    simp
  · intro last hs hl
    have hB := (play_inv env sched cl w).2.1
    have hfold : ∀ more, playPullChangeList env (sched ++ more) cl w =
        more.foldl (step env) (playPullChangeList env sched cl w) := by
      intro more
      unfold playPullChangeList
      rw [List.foldl_append]
    generalize playPullChangeList env sched cl w = s at *
    obtain ⟨last2, hl2, hwg⟩ := hB.1 hs
    rw [hl] at hl2
    cases hl2
    refine ⟨hwg, ?_, ?_⟩
    · intro hu
      obtain ⟨_, d2, _, d4, _, _⟩ := drain env s.started.length s (Nat.le_refl _)
      rw [mainStep_waiting _ (d4.trans hs)]
      have : ((List.replicate s.started.length (Choice.body 0)).foldl (step env) s).w.wg = 0 := by
        rw [d2, hwg, hu]; simp
      simp [this]
    · intro hu more
      rw [hfold]
      exact stuck_run env more s last hB hs hl hu
  · intro hne
    exact ((play_inv env sched cl w).2.1.2.1 hne).2
  · exact (play_inv env sched cl w).2.1.2.2
  · intro hall e he
    have hflat := windows_flatten_of_returned env sched cl w e he
    have hB := (play_inv env sched cl w).2.1
    have := allHandled_of_windows _ (hB.2.1 (by rw [he]; simp)).2
    rw [hflat, hall] at this
    exact Bool.noConfusion this
  · intro hall
    exact (roundRobin_returns env cl w hall).1

/-- Witness of C10: the window of `exBlocked` keeps the counter at 1 and stays
closed; the first window of `exFive` is released once its goroutines have
run. -/
theorem barrier_counter_witness :
    ((playPullChangeList exEnv lateRound exBlocked exWorld).status = Status.waiting ∧
      (playPullChangeList exEnv lateRound exBlocked exWorld).w.wg = 1 ∧
      (playPullChangeList exEnv (lateRound ++ roundRobin 3) exBlocked exWorld).status =
        Status.waiting) ∧
    ((playPullChangeList exEnv [Choice.main, Choice.body 1] exFive exWorld).status =
        Status.waiting ∧
      (mainStep ((List.replicate
          (playPullChangeList exEnv [Choice.main, Choice.body 1] exFive exWorld).started.length
          (Choice.body 0)).foldl (step exEnv)
            (playPullChangeList exEnv [Choice.main, Choice.body 1] exFive exWorld))).status =
        Status.loopHead) ∧
    (playPullChangeList exEnv (roundRobin (exFive.length + 1)) exFive exWorld).status =
      Status.returned none :=
  ⟨⟨by decide, by decide,
    ((barrier_counter exEnv lateRound exBlocked exWorld).2.2.1
      (exBlocked.take 4) (by decide) (by decide)).2.2 (by decide) (roundRobin 3)⟩,
   ⟨by decide,
    ((barrier_counter exEnv [Choice.main, Choice.body 1] exFive exWorld).2.2.1
      (exFive.take 4) (by decide) (by decide)).2.1 (by decide)⟩,
   (barrier_counter exEnv [] exFive exWorld).2.2.2.2.2.2 (by decide)⟩

/-- Claim C9, the code at a failing input.  A handler defers `g.taskDone()`
before `wg.Done()`, so `wg.Done()` runs first: on a list of one Modify, under a
schedule that runs the deferred `g.taskDone()` late, `playPullChangeList` calls
`g.taskFinish()` and returns with no decrement made, where the claim has one. -/
theorem taskDone_after_finish :
    allHandled [exMetaChange "a" Operation.OpMod] = true ∧
    (playPullChangeList exEnv (lateDone 2) [exMetaChange "a" Operation.OpMod]
      exWorld).status = Status.returned none ∧
    runLog exWorld (playPullChangeList exEnv (lateDone 2) [exMetaChange "a" Operation.OpMod]
      exWorld) =
      [Event.taskStart 1, Event.wgAdd 1,
       Event.go Handler.localMod (exMetaChange "a" Operation.OpMod),
       Event.chtimes "/r/a" 7, Event.wgDone, Event.taskFinish] ∧
    (runLog exWorld (playPullChangeList exEnv (lateDone 2)
      [exMetaChange "a" Operation.OpMod] exWorld)).count Event.taskDone = 0 ∧
    (playPullChangeList exEnv (lateDone 2) [exMetaChange "a" Operation.OpMod]
      exWorld).deferred = 1 := by
  decide

/-- Accounting of the calls on the progress tracker in a run over a list of
length `n`: `g.taskStart(n)` is the first call and the only `g.taskStart`; a
handler calls `g.taskDone()` exactly once on every exit path, as its last call;
when the function has returned, `g.taskFinish()` has been called exactly once,
after every `go` statement, every started body has run, and the calls of
`g.taskDone()` made and those still to come number as many as the goroutines
started; under the round-robin schedule, which runs every `g.taskDone()`
before the barrier is left, a run on handled changes returns with `n`
decrements made. -/
theorem progress_accounting (env : Env) (sched : List Choice) (cl : List Change)
    (w : World) :
    ((runLog w (playPullChangeList env sched cl w)).head? =
        some (Event.taskStart cl.length) ∧
      ∀ m, Event.taskStart m ∉ (runLog w (playPullChangeList env sched cl w)).tail) ∧
    (∀ h c w1,
      (runHandler env h c w1).1.trace =
        (handlerBody env h c w1).1.trace ++ [Event.wgDone, Event.taskDone] ∧
      (runHandler env h c w1).1.trace.count Event.taskDone =
        w1.trace.count Event.taskDone + 1) ∧
    (∀ e, (playPullChangeList env sched cl w).status = Status.returned e →
      (runLog w (playPullChangeList env sched cl w)).count Event.taskFinish = 1 ∧
      (∃ pre d, runLog w (playPullChangeList env sched cl w) =
          pre ++ Event.taskFinish :: List.replicate d Event.taskDone ∧
        launches pre = launches (runLog w (playPullChangeList env sched cl w))) ∧
      (playPullChangeList env sched cl w).started = [] ∧
      (runLog w (playPullChangeList env sched cl w)).count Event.taskDone +
          (playPullChangeList env sched cl w).deferred =
        (launches (runLog w (playPullChangeList env sched cl w))).length ∧
      (allHandled cl = true →
        (launches (runLog w (playPullChangeList env sched cl w))).length = cl.length)) ∧
    ((∀ e, (playPullChangeList env sched cl w).status ≠ Status.returned e) →
      Event.taskFinish ∉ runLog w (playPullChangeList env sched cl w)) ∧
    (allHandled cl = true →
      (playPullChangeList env (roundRobin (cl.length + 1)) cl w).status =
        Status.returned none ∧
      (runLog w (playPullChangeList env (roundRobin (cl.length + 1)) cl w)).count
        Event.taskDone = cl.length) := by
  refine ⟨?_, ?_, ?_, ?_, ?_⟩
  · obtain ⟨_, _, t, htr, _, _, _, hstart, _, _⟩ := play_inv env sched cl w
    rw [runLog_of_inv w cl _ t htr]
    exact ⟨rfl, hstart⟩
  · intro h c w1
    refine ⟨runHandler_trace env h c w1, ?_⟩
    rw [runHandler_count env h c w1 Event.taskDone rfl]
    simp
  · intro e he
    have hflat := windows_flatten_of_returned env sched cl w e he
    obtain ⟨_, hB, t, htr, hla, hdone, _, _, _, hfin⟩ := play_inv env sched cl w
    generalize playPullChangeList env sched cl w = s at *
    have hst : s.started = [] := (hB.2.1 (by rw [he]; simp)).1
    obtain ⟨pre, d, hpre, hnot, hlp⟩ := hfin e he
    rw [runLog_of_inv w cl s t htr]
    have hl : launches (Event.taskStart cl.length :: t) = launches t := rfl
    refine ⟨?_, ⟨Event.taskStart cl.length :: pre, d, ?_, ?_⟩, hst, ?_, ?_⟩
    · rw [hpre, List.count_cons, List.count_append, List.count_cons,
        List.count_eq_zero.mpr hnot]
      have : (List.replicate d Event.taskDone).count Event.taskFinish = 0 := by
        rw [List.count_eq_zero]
        intro hm
        have := List.eq_of_mem_replicate hm
        exact Event.noConfusion this
      rw [this]
      simp
    · rw [hpre]; rfl
    · rw [hl, ← hlp]; rfl
    · rw [hl, List.count_cons]
      rw [hst] at hdone
      simp only [List.length_nil] at hdone
      simp
      omega
    · intro hall
      rw [hl, hla, hflat]
      have := filterMap_launchOf_length cl
      rw [unhandled_of_allHandled cl hall] at this
      omega
  · intro hne
    obtain ⟨_, _, t, htr, _, _, _, _, hnofin, _⟩ := play_inv env sched cl w
    rw [runLog_of_inv w cl _ t htr]
    intro hm
    rcases List.mem_cons.mp hm with h | h
    · exact Event.noConfusion h
    · exact hnofin hne h
  · intro hall
    obtain ⟨r1, r2, r3⟩ := roundRobin_returns env cl w hall
    have hflat := windows_flatten_of_returned env _ cl w none r1
    obtain ⟨_, _, t, htr, hla, hdone, _, _, _, _⟩ :=
      play_inv env (roundRobin (cl.length + 1)) cl w
    refine ⟨r1, ?_⟩
    rw [runLog_of_inv w cl _ t htr, List.count_cons]
    rw [r2, r3, hla, hflat] at hdone
    have := filterMap_launchOf_length cl
    rw [unhandled_of_allHandled cl hall] at this
    simp only [List.length_nil] at hdone
    simp
    omega

end Drive
